import Mathlib

/-!
Shallow embedding of `cat_facts_tree.py` (class `Cat_Facts_Tree` and the
record helpers of `Cat_Facts_Tree_Records`), together with theorems settling
the frozen claims about the repository.

Python strings are modelled as lists of Unicode codepoints (`List Nat`);
`str.lower` is modelled on the ASCII range (the shipped keyword lists and the
facts appearing in the claims are ASCII apart from the curly quotes, which are
uncased).  Python `dict`s with a fixed key schema are modelled as structures
with `Option` fields for optional keys; the mutable `tree_dicts` dictionary is
modelled as an insertion-ordered association list with Python's assignment
semantics (replace in place if the key exists, append otherwise).  Places
where the Python code can raise are modelled with `Except PyErr`.
-/

/-- Codepoints of a Lean string literal, used to write the Python string
literals of the source. -/
def String.cp (x : String) : List Nat := x.data.map Char.toNat

/-- A Python string: its list of Unicode codepoints. -/
abbrev Str := List Nat

/-- Errors the modelled Python code can raise. -/
inductive PyErr where
  | keyError
  | typeError
  | attributeError
  | nameError
deriving DecidableEq, Repr

instance {ε α : Type} [DecidableEq ε] [DecidableEq α] : DecidableEq (Except ε α) :=
  fun a b =>
    match a, b with
    | .error e, .error f =>
      if h : e = f then .isTrue (by rw [h]) else .isFalse (by simp [h])
    | .error _, .ok _ => .isFalse (by simp)
    | .ok _, .error _ => .isFalse (by simp)
    | .ok x, .ok y =>
      if h : x = y then .isTrue (by rw [h]) else .isFalse (by simp [h])

/-! ## Text normalization (`Cat_Facts_Tree.normalize_text`, lines 206-220) -/

/-- Codepoints of `string.punctuation`
(`!"#$%&'()*+,-./:;<=>?@[\]^_`{|}~`), the characters deleted by the
`str.maketrans` table at line 210. -/
def pyPunct : List Nat :=
  [33, 34, 35, 36, 37, 38, 39, 40, 41, 42, 43, 44, 45, 46, 47,
   58, 59, 60, 61, 62, 63, 64, 91, 92, 93, 94, 95, 96, 123, 124, 125, 126]

/-- Membership test in `string.punctuation`. -/
def isPyPunct (c : Nat) : Bool := decide (c ∈ pyPunct)

/-- ASCII `str.lower` on one codepoint. -/
def lowerNat (c : Nat) : Nat := if 65 ≤ c ∧ c ≤ 90 then c + 32 else c

/-- ASCII whitespace codepoints removed by `str.strip`. -/
def pySpaceChars : List Nat := [32, 9, 10, 13, 11, 12]

/-- Whitespace test used by `str.strip`. -/
def isPySpace (c : Nat) : Bool := decide (c ∈ pySpaceChars)

/-- Python `str.strip`: drop whitespace from both ends. -/
def pyStrip (l : Str) : Str :=
  ((l.dropWhile isPySpace).reverse.dropWhile isPySpace).reverse

/-- Python `str.replace(c, "")` for a one-character pattern: remove every
occurrence of the codepoint `c`. -/
def removeAll (c : Nat) (l : Str) : Str := l.filter (fun x => decide (x ≠ c))

/-- `Cat_Facts_Tree.normalize_text` (lines 206-220): delete ASCII
punctuation via the translation table, lower-case, strip, then remove the
curly right single quote (U+2019 = 8217), the ASCII apostrophe (39), the
ASCII double quote (34), the closing parenthesis (41), the opening
parenthesis (40) and the curly left double quote (U+201C = 8220), in the
order of the source's `replace` calls. -/
def normalize_text (text : Str) : Str :=
  removeAll 8220 (removeAll 40 (removeAll 41 (removeAll 34 (removeAll 39
    (removeAll 8217
      (pyStrip ((text.filter (fun c => !(isPyPunct c))).map lowerNat)))))))

/-- Python `str.split(sep)` with an explicit one-character separator: splits
at every occurrence and keeps empty segments (`"".split(' ') == ['']`). -/
def pySplit (sep : Nat) (l : Str) : List Str :=
  l.foldr
    (fun c acc =>
      if c = sep then [] :: acc
      else
        match acc with
        | h :: t => (c :: h) :: t
        | [] => [[c]])
    [[]]

/-- Tokenization of a fact as performed at lines 230-231:
`self.normalize_text(fact).replace('-', ' ').split(' ')`.  (The hyphen, 45,
is ASCII punctuation and hence already deleted by `normalize_text`, so the
`replace` is a no-op on the normalized text; it is kept for faithfulness.) -/
def pyTokens (fact : Str) : List Str :=
  pySplit 32 ((normalize_text fact).map (fun c => if c = 45 then 32 else c))

/-! ## The shipped topic model (lines 67-181) -/

/-- One value of the `weighted_topic_vals` dictionary: the keys `weight`,
`matches` and `parents` are each optional (e.g. `misc` has only `weight`,
`cat` has all three). -/
structure TopicDef where
  weight : Option Nat
  «matches» : Option (List Str)
  parents : Option (List Str)
deriving DecidableEq, Repr

/-- A topic model: the `weighted_topic_vals` dictionary as an
insertion-ordered association list (Python 3.7+ dicts iterate in insertion
order). -/
abbrev TopicModel := List (Str × TopicDef)

/-- `cat_matches` (lines 67-68). -/
def cat_matches : List Str :=
  ["animal".cp, "animals".cp, "pet".cp, "pets".cp, "feline".cp, "felines".cp,
   "cats".cp, "kitten".cp, "kittens".cp, "kitty".cp]

/-- `person_matches` (lines 69-70). -/
def person_matches : List Str :=
  ["people".cp, "human".cp, "humans".cp, "persons".cp, "caretakers".cp,
   "caretaker".cp, "owner".cp, "owners".cp]

/-- `appearance_matches` (lines 71-77); the source's duplicated entries
(`smallest`, `smaller`) are kept. -/
def appearance_matches : List Str :=
  ["cute".cp, "look".cp, "color".cp, "hair".cp, "adorable".cp, "small".cp,
   "big".cp, "large".cp, "size".cp, "fat".cp, "skinny".cp, "strong".cp,
   "robust".cp, "muscular".cp, "muscle".cp, "hard".cp, "soft".cp, "breed".cp,
   "type".cp, "bred".cp, "grown".cp, "grow".cp, "head".cp, "breeds".cp,
   "largest".cp, "smallest".cp, "larger".cp, "smaller".cp, "biggest".cp,
   "smallest".cp, "bigger".cp, "smaller".cp, "softest".cp, "softer".cp,
   "hariest".cp, "harier".cp, "fluffiest".cp, "fluffier".cp, "hardest".cp,
   "harder".cp, "paw".cp, "paws".cp, "feet".cp, "foot".cp, "arm".cp,
   "tail".cp, "tails".cp, "claw".cp, "claws".cp, "fluff".cp, "fur".cp,
   "fingers".cp, "finger".cp, "toes".cp, "toe".cp, "nails".cp, "nail".cp]

/-- `personality_matches` (lines 78-79). -/
def personality_matches : List Str :=
  ["cute".cp, "look".cp, "color".cp, "adorable".cp, "small".cp, "big".cp,
   "large".cp, "size".cp, "fat".cp, "skinny".cp, "strong".cp, "robust".cp,
   "muscular".cp, "muscle".cp, "hard".cp, "soft".cp]

/-- `intelligence_matches` (lines 80-81); literally identical to
`personality_matches` in the source. -/
def intelligence_matches : List Str :=
  ["cute".cp, "look".cp, "color".cp, "adorable".cp, "small".cp, "big".cp,
   "large".cp, "size".cp, "fat".cp, "skinny".cp, "strong".cp, "robust".cp,
   "muscular".cp, "muscle".cp, "hard".cp, "soft".cp]

/-- `health_matches` (lines 82-84). -/
def health_matches : List Str :=
  ["cute".cp, "look".cp, "color".cp, "hair".cp, "adorable".cp, "small".cp,
   "big".cp, "large".cp, "size".cp, "fat".cp, "skinny".cp, "strong".cp,
   "robust".cp, "muscular".cp, "muscle".cp, "hard".cp, "soft".cp, "life".cp,
   "live".cp, "expectancy".cp, "normal".cp]

/-- `activities_matches` (lines 85-91); the source's duplicated entries
(`yell`, `yawn`, `yawning`) are kept. -/
def activities_matches : List Str :=
  ["run".cp, "running".cp, "play".cp, "playing".cp, "walk".cp, "walking".cp,
   "stalk".cp, "stalking".cp, "ran".cp, "played".cp, "walked".cp,
   "stalked".cp, "talking".cp, "talked".cp, "talks".cp, "runs".cp,
   "plays".cp, "walks".cp, "stalks".cp, "hunts".cp, "hunted".cp,
   "hunting".cp, "hunt".cp, "catch".cp, "caught".cp, "catching".cp,
   "catches".cp, "bites".cp, "bit".cp, "bite".cp, "prey".cp, "preyed".cp,
   "preying".cp, "preys".cp, "meows".cp, "meowing".cp, "meowed".cp,
   "meow".cp, "cries".cp, "crying".cp, "cried".cp, "cry".cp, "yell".cp,
   "yells".cp, "yelled".cp, "yell".cp, "yawn".cp, "yawns".cp, "yawn".cp,
   "yawning".cp, "kill".cp, "kills".cp, "killing".cp, "killed".cp,
   "yelling".cp, "yawning".cp]

/-- `positive_matches` (lines 92-95). -/
def positive_matches : List Str :=
  ["good".cp, "great".cp, "best".cp, "fantastic".cp, "incredible".cp,
   "wonderful".cp, "amazing".cp, "powerful".cp, "smart".cp,
   "intelligent".cp, "better".cp, "healthy".cp, "beautiful".cp, "super".cp,
   "superb".cp, "awesome".cp, "love".cp, "loving".cp, "fastest".cp,
   "fast".cp, "faster".cp]

/-- `negative_matches` (lines 96-98); the duplicated `unhealthy` is kept. -/
def negative_matches : List Str :=
  ["bad".cp, "lame".cp, "worst".cp, "worse".cp, "stupid".cp, "dumb".cp,
   "pointless".cp, "idiotic".cp, "moronic".cp, "weird".cp, "odd".cp,
   "goofy".cp, "terrible".cp, "awful".cp, "unhealthy".cp, "ugly".cp,
   "unhealthy".cp, "hate".cp, "hateful".cp, "slowest".cp, "slower".cp,
   "slow".cp]

/-- `weighted_topic_vals` (lines 100-181), in the source's insertion order.
The topic key `activites` keeps the source's spelling while its parent list
names `activities`. -/
def weighted_topic_vals : TopicModel :=
  [("cat".cp, ⟨some 1, some cat_matches, some ["cat_root".cp]⟩),
   ("misc".cp, ⟨some 1, none, none⟩),
   ("person".cp, ⟨some 1, some person_matches, some ["person_root".cp]⟩),
   ("appearance".cp,
     ⟨some 2, some appearance_matches, some ["cat_root".cp, "cat".cp]⟩),
   ("personality".cp,
     ⟨some 2, some personality_matches, some ["cat_root".cp, "cat".cp]⟩),
   ("intelligence".cp,
     ⟨some 2, some intelligence_matches, some ["cat_root".cp, "cat".cp]⟩),
   ("health".cp,
     ⟨some 2, some health_matches, some ["cat_root".cp, "cat".cp]⟩),
   ("activites".cp,
     ⟨some 2, some activities_matches, some ["cat_root".cp, "cat".cp]⟩),
   ("positive_health".cp,
     ⟨some 3, some positive_matches,
      some ["cat_root".cp, "cat".cp, "health".cp]⟩),
   ("negative_health".cp,
     ⟨some 3, some negative_matches,
      some ["cat_root".cp, "cat".cp, "health".cp]⟩),
   ("positive_intelligence".cp,
     ⟨some 3, some positive_matches,
      some ["cat_root".cp, "cat".cp, "intelligence".cp]⟩),
   ("negative_intelligence".cp,
     ⟨some 3, some negative_matches,
      some ["cat_root".cp, "cat".cp, "intelligence".cp]⟩),
   ("positive_personality".cp,
     ⟨some 3, some positive_matches,
      some ["cat_root".cp, "cat".cp, "personality".cp]⟩),
   ("negative_personality".cp,
     ⟨some 3, some negative_matches,
      some ["cat_root".cp, "cat".cp, "personality".cp]⟩),
   ("positive_activities".cp,
     ⟨some 3, some positive_matches,
      some ["cat_root".cp, "cat".cp, "activities".cp]⟩),
   ("negative_activities".cp,
     ⟨some 3, some negative_matches,
      some ["cat_root".cp, "cat".cp, "activities".cp]⟩)]

/-- The topic names of a model, in enumeration order. -/
def topicNames (model : TopicModel) : List Str := model.map Prod.fst

/-- The `_root` suffix appended at lines 253 and 326. -/
def rootSuffix : Str := "_root".cp

/-! ## Per-fact classification (lines 229-307) -/

/-- The classification record built for one fact: the dictionary
`fact_results`, whose keys `topic`, `depth`, `parents` and `fact` are always
assigned together with `found = True`. -/
structure FactResults where
  topic : Str
  depth : Nat
  parents : List Str
  fact : Str
deriving DecidableEq, Repr

/-- The body of the `for _topic, vals in cat_topics_model.items()` loop
(lines 241-298) for a single token, acting on the current `fact_results`
(modelled as `Option FactResults`, `none` while `found` is `False`).

`greatest_weight` is re-initialized to `large_int = 100000000` at every
topic iteration (line 245), so in the keyword branch the comparison
`vals['weight'] < greatest_weight` compares against `large_int`; after the
weight is assigned, the subsequent `greatest_weight == large_int` test
(lines 280, 292) can still never see `large_int` unless the weight itself
equals it.  Accessing a missing `weight` key raises `KeyError`; Python's
short-circuit `and` only reaches `vals['weight']` once `token == match_word`
holds.  `list(set(...))` at line 278 is modelled as `List.dedup` (same
elements; Python's set order is hash-dependent). -/
def scanEntry (fact tok : Str) (acc : Option FactResults) (e : Str × TopicDef) :
    Except PyErr (Option FactResults) :=
  let name := e.1
  let vals := e.2
  if name = tok then
    match vals.weight with
    | none => .error .keyError
    | some w => .ok (some ⟨name, w, [name ++ rootSuffix], fact⟩)
  else
    match vals.«matches» with
    | none => .ok acc
    | some ms =>
      if tok ∈ ms then
        match vals.weight with
        | none => .error .keyError
        | some w =>
          if w < 100000000 then
            match vals.parents with
            | some ps =>
              .ok (some ⟨name, if w = 100000000 then 0 else w, ps.dedup, fact⟩)
            | none =>
              .ok (some ⟨name, if w = 100000000 then 0 else w, [name], fact⟩)
          else .ok acc
      else .ok acc

/-- The full scan of the topic model for a single token (lines 241-298):
every entry is visited, later matching entries overwrite earlier ones. -/
def scanModel (fact tok : Str) (acc : Option FactResults) :
    TopicModel → Except PyErr (Option FactResults)
  | [] => .ok acc
  | e :: rest =>
    match scanEntry fact tok acc e with
    | .error err => .error err
    | .ok acc2 => scanModel fact tok acc2 rest

/-- The `for token in tokens` loop (lines 239-307): a token is scanned only
while `found` is still `False` (line 240), i.e. while the accumulator is
`none`. -/
def classifyTokens (fact : Str) (model : TopicModel) (acc : Option FactResults) :
    List Str → Except PyErr (Option FactResults)
  | [] => .ok acc
  | t :: ts =>
    match acc with
    | some r => classifyTokens fact model (some r) ts
    | none =>
      match scanModel fact t none model with
      | .error err => .error err
      | .ok acc2 => classifyTokens fact model acc2 ts

/-- Classification of a single fact (lines 230-307): tokenize, then scan the
tokens; `.ok none` means the fact matched nothing and is discarded. -/
def classifyFact (model : TopicModel) (fact : Str) :
    Except PyErr (Option FactResults) :=
  classifyTokens fact model none (pyTokens fact)

/-! ## The tree dictionary (lines 228, 308-328) -/

/-- A value of `tree_dicts`: either an ordered list of classified facts, or
a synthetic root-node dictionary
`{'topic': T, 'depth': 0, 'parents': None, 'fact': None}` (lines 324-325),
which carries only its topic label. -/
inductive TreeNode where
  | facts (l : List FactResults)
  | root (topic : Str)
deriving DecidableEq, Repr

/-- The tree dictionary: keys in insertion order. -/
abbrev TreeDict := List (Str × TreeNode)

/-- Python dict assignment `d[k] = v`: replace the value in place if the key
exists, otherwise append the new key. -/
def dictSet (d : TreeDict) (k : Str) (v : TreeNode) : TreeDict :=
  if k ∈ d.map Prod.fst then
    d.map (fun e => if e.1 = k then (k, v) else e)
  else d ++ [(k, v)]

/-- Python dict lookup `d[k]` / `k in d`: the first (and, as built here,
only) entry with key `k`. -/
def pyGet (d : TreeDict) (k : Str) : Option TreeNode :=
  (d.find? (fun e => decide (e.1 = k))).map Prod.snd

/-- Insertion of a classified fact into `tree_dicts` (lines 308-328).  If
the topic key exists its list is appended to (appending to a root-node
dictionary would raise `AttributeError`; with the shipped model this cannot
happen).  For a new topic key, a root node keyed `topic + '_root'` is first
created when the fact's depth is 1 (the source's `is 1` identity test agrees
with value equality for CPython's cached small integers), then the fact is
stored under its topic key. -/
def insertFact (d : TreeDict) (r : FactResults) : Except PyErr TreeDict :=
  match pyGet d r.topic with
  | some (.facts l) => .ok (dictSet d r.topic (.facts (l ++ [r])))
  | some (.root _) => .error .attributeError
  | none =>
    let d2 := if r.depth = 1 then dictSet d (r.topic ++ rootSuffix) (.root r.topic) else d
    .ok (dictSet d2 r.topic (.facts [r]))

/-- The `for fact in facts` loop of `determine_facts_hierarchy`
(lines 229-328), threading `tree_dicts`. -/
def dfhGo (model : TopicModel) : List Str → TreeDict → Except PyErr TreeDict
  | [], d => .ok d
  | f :: rest, d =>
    match classifyFact model f with
    | .error err => .error err
    | .ok none => dfhGo model rest d
    | .ok (some r) =>
      match insertFact d r with
      | .error err => .error err
      | .ok d2 => dfhGo model rest d2

/-- `Cat_Facts_Tree.determine_facts_hierarchy` (lines 222-338): classify
every fact of the batch into the tree dictionary.  The final `print` loop
(lines 329-337) performs I/O only and cannot raise (`len` is defined on both
lists and dicts), so it is not modelled. -/
def determine_facts_hierarchy (facts : List Str) (cat_topics_model : TopicModel) :
    Except PyErr TreeDict :=
  dfhGo cat_topics_model facts []

/-- All classified-fact records stored in a tree, in key order. -/
def treeRecords (d : TreeDict) : List FactResults :=
  d.foldr
    (fun e acc =>
      match e.2 with
      | .facts l => l ++ acc
      | .root _ => acc)
    []

/-! ## Persistence wrappers (`Cat_Facts_Tree_Records`, lines 396-492).
The PostgreSQL connection, cursor and SQL execution are external
collaborators; what is modelled is the pure record-preparation logic of the
write loops, with the rows that would be inserted collected in a list. -/

/-- One row of the `defaulttable` schema (lines 421-429), as prepared by the
insert statements.  The `str(...)` rendering applied to every column at
lines 448-449 and 455-456 is not modelled; a root node's absent fact payload
(`None`) is modelled as `none`. -/
structure DbRec where
  id : Nat
  depth : Nat
  topic : Str
  parents : Str
  fact : Option Str
deriving DecidableEq, Repr

/-- Python `", ".join(parts)` (lines 444 and 483). -/
def joinCommaSpace (parts : List Str) : Str := List.intercalate [44, 32] parts

/-- The record-writing loop of `Cat_Facts_Tree_Records.save_to_db_clean`
(lines 435-458), threading the running `index`.  A node passes the
`len(node) > 1 and type(node) is list` test only when it is a fact list with
more than one element; every other node falls into the root-node branch,
where `node['parents'] = "none"` raises `TypeError` if the node is in fact a
list (string indices cannot be assigned on a Python list).  A classified
fact always carries its `parents` key, so the `'parents' in _each` test at
line 440 succeeds and the value, never `None`, is comma-joined. -/
def saveGo (idx : Nat) : TreeDict → Except PyErr (List DbRec)
  | [] => .ok []
  | e :: rest =>
    match e.2 with
    | .facts l =>
      if 1 < l.length then
        match saveGo (idx + l.length) rest with
        | .error err => .error err
        | .ok recs =>
          .ok (((List.range l.length).zip l).map
            (fun p => ⟨idx + p.1, p.2.depth, p.2.topic,
              joinCommaSpace p.2.parents, some p.2.fact⟩) ++ recs)
      else .error .typeError
    | .root t =>
      match saveGo (idx + 1) rest with
      | .error err => .error err
      | .ok recs => .ok (⟨idx, 0, t, "none".cp, none⟩ :: recs)

/-- `Cat_Facts_Tree_Records.save_to_db_clean` (lines 407-462): after the
external drop/create statements, the rows inserted (in order) from the tree
data, starting at id 0, or the error raised by the loop. -/
def save_to_db_clean (data : TreeDict) : Except PyErr (List DbRec) := saveGo 0 data

/-- A record passed to `Cat_Facts_Tree_Records.create`: the required keys
`depth`, `topic` and `fact`, and the optional `parents` key, which may be
absent (`none`), present as Python `None` (`some none`), or present as a
list of names (`some (some ps)`). -/
structure CreateRec where
  depth : Nat
  topic : Str
  fact : Str
  parents : Option (Option (List Str))
deriving DecidableEq, Repr

/-- The record loop of `Cat_Facts_Tree_Records.create` (lines 478-489),
run with whatever starting id line 476 would have computed.  A record whose
`parents` key is present and not `None` reaches line 484,
`eeach['parents'] = val`, which assigns to the undefined name `eeach` and
raises `NameError` before the record's insert statement; in the two other
cases `parents` is stored as the literal string `"none"`.  The source never
increments `index` inside this loop, so every inserted row keeps the
starting id. -/
def createGo (idx : Nat) : List CreateRec → Except PyErr (List DbRec)
  | [] => .ok []
  | r :: rest =>
    match r.parents with
    | some (some _) => .error .nameError
    | _ =>
      match createGo idx rest with
      | .error err => .error err
      | .ok recs => .ok (⟨idx, r.depth, r.topic, "none".cp, some r.fact⟩ :: recs)

/-- A Python dictionary key as it occurs around `create`: the integer 0 of
`row[0]`, or a column-name string. -/
inductive PyKey where
  | int (n : Nat)
  | str (s : Str)
deriving DecidableEq, Repr

/-- A value stored in a fetched row: an integer column or a string column. -/
inductive PyVal where
  | int (n : Nat)
  | str (s : Str)
deriving DecidableEq, Repr

/-- The row `cur.fetchone()` returns at line 475 for a nonempty table.  The
cursor is created with `cursor_factory = psycopg2.extras.RealDictCursor`
(line 473), so the row is a `RealDictRow`: a dictionary keyed *only* by the
result's column names (PostgreSQL folds the unquoted identifiers of the
`CREATE TABLE` at lines 422-428 to lower case), with no positional integer
keys.  The five stored values — the columns of the last row by id — are
arbitrary. -/
def realDictRow (idv depthv : Nat) (topicv parentsv factv : Str) :
    List (PyKey × PyVal) :=
  [(PyKey.str ("id".cp), PyVal.int idv),
   (PyKey.str ("depth".cp), PyVal.int depthv),
   (PyKey.str ("topic".cp), PyVal.str topicv),
   (PyKey.str ("parents".cp), PyVal.str parentsv),
   (PyKey.str ("fact".cp), PyVal.str factv)]

/-- Python dict lookup `d[k]`: a missing key raises `KeyError`. -/
def pyDictGet (d : List (PyKey × PyVal)) (k : PyKey) : Except PyErr PyVal :=
  match d.find? (fun e => decide (e.1 = k)) with
  | some e => .ok e.2
  | none => .error .keyError

/-- Python `v + 1` on a fetched column value: defined on integers, and a
`TypeError` on a string. -/
def pyAddOne (v : PyVal) : Except PyErr Nat :=
  match v with
  | .int n => .ok (n + 1)
  | .str _ => .error .typeError

/-- `Cat_Facts_Tree_Records.create` (lines 464-492).  The external database
interaction is the `SELECT` of lines 472-475; its result is passed in:
`none` when the table was empty (`fetchone` returned `None`, and `row[0]`
at line 476 raises `TypeError` on `None`), otherwise the fetched
`RealDictRow`.  Line 476, `index = row[0] + 1`, looks up the integer key 0
in the name-keyed row dictionary; only if that read succeeded would the
record loop (`createGo`) run with the computed id. -/
def create (row : Option (List (PyKey × PyVal))) (values : List CreateRec) :
    Except PyErr (List DbRec) :=
  match row with
  | none => .error .typeError
  | some r =>
    match pyDictGet r (.int 0) with
    | .error e => .error e
    | .ok v =>
      match pyAddOne v with
      | .error e => .error e
      | .ok idx => createGo idx values

/-! ## Characterization of the per-fact scan

These definitions and lemmas capture, declaratively, what the imperative
scan of lines 239-298 computes: because `greatest_weight` restarts at
`large_int` on every topic iteration, every matching entry of the model
overwrites the current result, so for each token the *last* matching entry
in enumeration order wins, and the token loop's `if not found` guard makes
the *first* token with any match decide the fact. -/

/-- The model entries matched by a token: the entry's name equals the token,
or the token lies in the entry's keyword list. -/
def matchersOf (model : TopicModel) (tok : Str) : TopicModel :=
  model.filter (fun e => decide (e.1 = tok ∨ tok ∈ e.2.«matches».getD []))

/-- The parent list stored by the keyword branch: the declared parents,
deduplicated (line 278), or the topic's own name when no parents are
declared (line 289). -/
def psOf (e : Str × TopicDef) : List Str :=
  match e.2.parents with
  | some ps => ps.dedup
  | none => [e.1]

/-- The record the scan stores for a token matched by entry `e`: the anchor
shape of lines 247-256 when the entry's name is the token, otherwise the
keyword shape of lines 260-298. -/
def recordOf (fact tok : Str) (e : Str × TopicDef) : FactResults :=
  if e.1 = tok then ⟨e.1, e.2.weight.getD 0, [e.1 ++ rootSuffix], fact⟩
  else ⟨e.1, e.2.weight.getD 0, psOf e, fact⟩

/-- A model on which the scan cannot raise: every topic has a registered
weight, smaller than `large_int`.  The shipped model satisfies this. -/
abbrev ModelOK (model : TopicModel) : Prop :=
  ∀ e ∈ model, e.2.weight.isSome = true ∧ e.2.weight.getD 0 < 100000000

/-- Result of scanning one token over the whole model starting from `acc`:
the last matching entry's record, or `acc` if nothing matched. -/
def matchEnd (fact tok : Str) (model : TopicModel) (acc : Option FactResults) :
    Option FactResults :=
  match (matchersOf model tok).getLast? with
  | none => acc
  | some e => some (recordOf fact tok e)

theorem modelOK_shipped : ModelOK weighted_topic_vals := by decide

theorem scanEntry_match (fact tok : Str) (acc : Option FactResults)
    (e : Str × TopicDef) (hw : e.2.weight.isSome = true)
    (hlt : e.2.weight.getD 0 < 100000000)
    (h : e.1 = tok ∨ tok ∈ e.2.«matches».getD []) :
    scanEntry fact tok acc e = .ok (some (recordOf fact tok e)) := by
  obtain ⟨w, hww⟩ := Option.isSome_iff_exists.mp hw
  rw [hww] at hlt
  simp only [Option.getD_some] at hlt
  by_cases ht : e.1 = tok
  · simp [scanEntry, recordOf, ht, hww]
  · rcases h with h | h
    · exact absurd h ht
    · rcases hms : e.2.«matches» with _ | ms
      · rw [hms] at h; simp at h
      · rw [hms] at h
        simp only [Option.getD_some] at h
        rcases hps : e.2.parents with _ | ps <;>
          simp [scanEntry, recordOf, psOf, ht, hww, hms, hps, h,
            Nat.ne_of_lt hlt, hlt]

theorem scanEntry_skip (fact tok : Str) (acc : Option FactResults)
    (e : Str × TopicDef)
    (h : ¬(e.1 = tok ∨ tok ∈ e.2.«matches».getD [])) :
    scanEntry fact tok acc e = .ok acc := by
  push_neg at h
  obtain ⟨ht, hm⟩ := h
  rcases hms : e.2.«matches» with _ | ms
  · simp [scanEntry, ht, hms]
  · rw [hms] at hm
    simp only [Option.getD_some] at hm
    simp [scanEntry, ht, hms, hm]

theorem getLast?_cons_of_ne_nil {α : Type} (a : α) {l : List α} (h : l ≠ []) :
    (a :: l).getLast? = l.getLast? := by
  cases l with
  | nil => exact absurd rfl h
  | cons b t => exact List.getLast?_cons_cons

theorem mem_of_getLast?_some {α : Type} {l : List α} {a : α}
    (h : l.getLast? = some a) : a ∈ l := by
  induction l with
  | nil => simp [List.getLast?] at h
  | cons b t ih =>
    cases t with
    | nil => simp [List.getLast?] at h; simp [h]
    | cons c u =>
      rw [List.getLast?_cons_cons] at h
      exact List.mem_cons_of_mem _ (ih h)

theorem getLast?_ne_nil {α : Type} {l : List α} (h : l ≠ []) :
    ∃ a, l.getLast? = some a := by
  induction l with
  | nil => exact absurd rfl h
  | cons b t ih =>
    cases t with
    | nil => exact ⟨b, rfl⟩
    | cons c u =>
      obtain ⟨a, ha⟩ := ih (by simp)
      exact ⟨a, by rw [List.getLast?_cons_cons]; exact ha⟩

theorem scanModel_eq (fact tok : Str) (acc : Option FactResults) :
    ∀ model : TopicModel, ModelOK model →
      scanModel fact tok acc model = .ok (matchEnd fact tok model acc) := by
  intro model
  induction model generalizing acc with
  | nil => intro _; simp [scanModel, matchEnd, matchersOf]
  | cons e rest ih =>
    intro hM
    have he := hM e (List.mem_cons_self e rest)
    have hrest : ModelOK rest := fun x hx => hM x (List.mem_cons_of_mem e hx)
    by_cases h : e.1 = tok ∨ tok ∈ e.2.«matches».getD []
    · rw [scanModel, scanEntry_match fact tok acc e he.1 he.2 h]
      show scanModel fact tok (some (recordOf fact tok e)) rest =
        Except.ok (matchEnd fact tok (e :: rest) acc)
      rw [ih (some (recordOf fact tok e)) hrest]
      have hfil : matchersOf (e :: rest) tok = e :: matchersOf rest tok := by
        simp [matchersOf, List.filter_cons, h]
      by_cases hr : matchersOf rest tok = []
      · simp [matchEnd, hfil, hr]
      · obtain ⟨a, ha⟩ := getLast?_ne_nil hr
        simp [matchEnd, hfil, getLast?_cons_of_ne_nil e hr, ha]
    · rw [scanModel, scanEntry_skip fact tok acc e h]
      show scanModel fact tok acc rest = Except.ok (matchEnd fact tok (e :: rest) acc)
      rw [ih acc hrest]
      have hfil : matchersOf (e :: rest) tok = matchersOf rest tok := by
        simp [matchersOf, List.filter_cons, h]
      rw [matchEnd, matchEnd, hfil]

/-- Declarative description of `classifyFact`: the first token whose matcher
list is nonempty decides the fact, and among its matchers the last one in
model-enumeration order provides the record. -/
def classifySpec (model : TopicModel) (fact : Str) : Option FactResults :=
  match (pyTokens fact).find? (fun t => !(matchersOf model t).isEmpty) with
  | none => none
  | some t => matchEnd fact t model none

theorem classifyTokens_some (fact : Str) (model : TopicModel) (r : FactResults) :
    ∀ ts : List Str, classifyTokens fact model (some r) ts = .ok (some r) := by
  intro ts
  induction ts with
  | nil => rfl
  | cons t ts ih => rw [classifyTokens]; exact ih

theorem classifyTokens_none_eq (fact : Str) (model : TopicModel)
    (hM : ModelOK model) :
    ∀ ts : List Str,
      classifyTokens fact model none ts =
        .ok (match ts.find? (fun t => !(matchersOf model t).isEmpty) with
              | none => none
              | some t => matchEnd fact t model none) := by
  intro ts
  induction ts with
  | nil => rfl
  | cons t ts ih =>
    rw [classifyTokens]
    rw [scanModel_eq fact t none model hM]
    by_cases h : matchersOf model t = []
    · have hend : matchEnd fact t model none = none := by simp [matchEnd, h]
      rw [hend]
      show classifyTokens fact model none ts = _
      rw [ih]
      have hp : (fun u => !(matchersOf model u).isEmpty) t = false := by
        simp [h]
      rw [List.find?_cons_of_neg _ (by simp [hp])]
    · obtain ⟨e, he⟩ := getLast?_ne_nil h
      have hend : matchEnd fact t model none = some (recordOf fact t e) := by
        simp [matchEnd, he]
      rw [hend]
      show classifyTokens fact model (some (recordOf fact t e)) ts = _
      rw [classifyTokens_some]
      have hp : (fun u => !(matchersOf model u).isEmpty) t = true := by
        simp [List.isEmpty_iff, h]
      have hfind :
          (t :: ts).find? (fun u => !(matchersOf model u).isEmpty) = some t :=
        List.find?_cons_of_pos ts hp
      rw [hfind]
      exact congrArg Except.ok hend.symm

/-- The imperative scan (lines 229-307) computes exactly its declarative
description, on every model where the scan cannot raise. -/
theorem classifyFact_eq (model : TopicModel) (hM : ModelOK model) (fact : Str) :
    classifyFact model fact = .ok (classifySpec model fact) := by
  rw [classifyFact, classifyTokens_none_eq fact model hM, classifySpec]

/-- The weight registered in a model for a topic name. -/
def weightAt (model : TopicModel) (n : Str) : Option Nat :=
  match model.find? (fun e => decide (e.1 = n)) with
  | some e => e.2.weight
  | none => none

theorem find?_fst_eq_of_mem {model : TopicModel} {e : Str × TopicDef}
    (hnd : (topicNames model).Nodup) (he : e ∈ model) :
    model.find? (fun x => decide (x.1 = e.1)) = some e := by
  induction model with
  | nil => simp at he
  | cons a rest ih =>
    have hnd2 : (topicNames rest).Nodup := by
      simpa [topicNames] using hnd.of_cons
    rcases List.mem_cons.mp he with rfl | hmem
    · exact List.find?_cons_of_pos _ (by simp)
    · have hne : a.1 ≠ e.1 := by
        intro hcontra
        have : e.1 ∈ topicNames rest := List.mem_map_of_mem Prod.fst hmem
        rw [← hcontra] at this
        simp only [topicNames, List.map_cons] at hnd
        exact (List.nodup_cons.mp hnd).1 this
      rw [List.find?_cons_of_neg _ (by simp [hne])]
      exact ih hnd2 hmem

theorem recordOf_topic (fact tok : Str) (e : Str × TopicDef) :
    (recordOf fact tok e).topic = e.1 := by
  rw [recordOf]; by_cases h : e.1 = tok <;> simp [h]

theorem recordOf_fact (fact tok : Str) (e : Str × TopicDef) :
    (recordOf fact tok e).fact = fact := by
  rw [recordOf]; by_cases h : e.1 = tok <;> simp [h]

theorem recordOf_depth (fact tok : Str) (e : Str × TopicDef) :
    (recordOf fact tok e).depth = e.2.weight.getD 0 := by
  rw [recordOf]; by_cases h : e.1 = tok <;> simp [h]

/-- Shape of a successful classification: the record comes from the last
matcher of the first matching token. -/
theorem classifySpec_some {model : TopicModel} {fact : Str} {r : FactResults}
    (h : classifySpec model fact = some r) :
    ∃ t e, (pyTokens fact).find? (fun u => !(matchersOf model u).isEmpty) = some t ∧
      (matchersOf model t).getLast? = some e ∧ r = recordOf fact t e := by
  rw [classifySpec] at h
  rcases hf : (pyTokens fact).find? (fun u => !(matchersOf model u).isEmpty) with _ | t
  · rw [hf] at h; simp at h
  · rw [hf] at h
    rcases hl : (matchersOf model t).getLast? with _ | e
    · simp [matchEnd, hl] at h
    · simp only [matchEnd, hl] at h
      exact ⟨t, e, rfl, hl, (Option.some.inj h).symm⟩

/-- Every record produced by a successful classification carries the input
fact, a topic name of the model, and that topic's registered weight as its
depth. -/
theorem classifySpec_props {model : TopicModel} {fact : Str} {r : FactResults}
    (hM : ModelOK model) (hnd : (topicNames model).Nodup)
    (h : classifySpec model fact = some r) :
    r.fact = fact ∧ r.topic ∈ topicNames model ∧
      weightAt model r.topic = some r.depth := by
  obtain ⟨t, e, _, hl, rfl⟩ := classifySpec_some h
  have hmem : e ∈ model := List.mem_of_mem_filter (mem_of_getLast?_some hl)
  have hw := hM e hmem
  obtain ⟨w, hww⟩ := Option.isSome_iff_exists.mp hw.1
  refine ⟨recordOf_fact fact t e, ?_, ?_⟩
  · rw [recordOf_topic]
    exact List.mem_map_of_mem Prod.fst hmem
  · rw [recordOf_topic, recordOf_depth, weightAt, find?_fst_eq_of_mem hnd hmem]
    simp [hww]

theorem topicNames_shipped_nodup : (topicNames weighted_topic_vals).Nodup := by
  decide

/-! ## Invariants of the tree dictionary -/

/-- The keys of the tree dictionary, in insertion order. -/
def keysOf (d : TreeDict) : List Str := d.map Prod.fst

theorem treeRecords_cons (e : Str × TreeNode) (d : TreeDict) :
    treeRecords (e :: d) =
      (match e.2 with
        | .facts l => l ++ treeRecords d
        | .root _ => treeRecords d) := by
  rfl

theorem mem_treeRecords {d : TreeDict} {x : FactResults} :
    x ∈ treeRecords d ↔ ∃ e ∈ d, ∃ l, e.2 = .facts l ∧ x ∈ l := by
  induction d with
  | nil =>
    constructor
    · intro h; simp [treeRecords] at h
    · rintro ⟨e, he, _⟩; simp at he
  | cons e d ih =>
    rw [treeRecords_cons]
    rcases hn : e.2 with l | t
    · simp only [List.mem_append, ih]
      constructor
      · rintro (hx | ⟨e', he', l', hl', hx⟩)
        · exact ⟨e, List.mem_cons_self e d, l, hn, hx⟩
        · exact ⟨e', List.mem_cons_of_mem e he', l', hl', hx⟩
      · rintro ⟨e', he', l', hl', hx⟩
        rcases List.mem_cons.mp he' with rfl | he'
        · left; rw [hn] at hl'; cases hl'; exact hx
        · right; exact ⟨e', he', l', hl', hx⟩
    · rw [ih]
      constructor
      · rintro ⟨e', he', l', hl', hx⟩
        exact ⟨e', List.mem_cons_of_mem e he', l', hl', hx⟩
      · rintro ⟨e', he', l', hl', hx⟩
        rcases List.mem_cons.mp he' with rfl | he'
        · rw [hn] at hl'; cases hl'
        · exact ⟨e', he', l', hl', hx⟩

theorem keysOf_dictSet (d : TreeDict) (k : Str) (v : TreeNode) :
    keysOf (dictSet d k v) =
      if k ∈ keysOf d then keysOf d else keysOf d ++ [k] := by
  rw [dictSet, keysOf]
  by_cases hk : k ∈ d.map Prod.fst
  · rw [if_pos hk, if_pos (by exact hk), List.map_map]
    refine List.map_congr_left ?_
    intro e _
    by_cases he : e.1 = k
    · simp [he]
    · simp [he]
  · rw [if_neg hk, if_neg (by exact hk)]
    simp [keysOf]

theorem mem_keysOf_dictSet {d : TreeDict} {k k' : Str} {v : TreeNode} :
    k' ∈ keysOf (dictSet d k v) ↔ k' ∈ keysOf d ∨ k' = k := by
  rw [keysOf_dictSet]
  by_cases hk : k ∈ keysOf d
  · rw [if_pos hk]
    constructor
    · exact Or.inl
    · rintro (h | rfl)
      · exact h
      · exact hk
  · rw [if_neg hk]; simp

theorem mem_entry_dictSet {d : TreeDict} {k : Str} {v : TreeNode}
    {e : Str × TreeNode} (h : e ∈ dictSet d k v) :
    (e ∈ d ∧ e.1 ≠ k) ∨ e = (k, v) := by
  rw [dictSet] at h
  by_cases hk : k ∈ d.map Prod.fst
  · rw [if_pos hk] at h
    obtain ⟨e', he', heq⟩ := List.mem_map.mp h
    by_cases h1 : e'.1 = k
    · rw [if_pos h1] at heq; right; exact heq.symm
    · rw [if_neg h1] at heq; left; exact ⟨heq ▸ he', heq ▸ h1⟩
  · rw [if_neg hk] at h
    rcases List.mem_append.mp h with h | h
    · left
      refine ⟨h, ?_⟩
      intro hcontra
      exact hk (hcontra ▸ List.mem_map_of_mem Prod.fst h)
    · right; simpa using h

theorem entry_mem_dictSet_of_ne {d : TreeDict} {k : Str} {v : TreeNode}
    {e : Str × TreeNode} (he : e ∈ d) (hne : e.1 ≠ k) : e ∈ dictSet d k v := by
  rw [dictSet]
  by_cases hk : k ∈ d.map Prod.fst
  · rw [if_pos hk]
    exact List.mem_map.mpr ⟨e, he, if_neg hne⟩
  · rw [if_neg hk]; exact List.mem_append_left _ he

theorem self_mem_dictSet (d : TreeDict) (k : Str) (v : TreeNode) :
    (k, v) ∈ dictSet d k v := by
  rw [dictSet]
  by_cases hk : k ∈ d.map Prod.fst
  · rw [if_pos hk]
    obtain ⟨e, he, h1⟩ := List.mem_map.mp hk
    exact List.mem_map.mpr ⟨e, he, if_pos h1⟩
  · rw [if_neg hk]; exact List.mem_append_right _ (by simp)

theorem pyGet_eq_none_iff {d : TreeDict} {k : Str} :
    pyGet d k = none ↔ k ∉ keysOf d := by
  rw [pyGet, Option.map_eq_none', List.find?_eq_none, keysOf]
  constructor
  · intro h hk
    obtain ⟨e, he, h1⟩ := List.mem_map.mp hk
    exact h e he (by simp [h1])
  · intro h e he
    simp only [decide_eq_true_eq]
    intro h1
    exact h (h1 ▸ List.mem_map_of_mem Prod.fst he)

theorem pyGet_some_mem {d : TreeDict} {k : Str} {v : TreeNode}
    (h : pyGet d k = some v) : (k, v) ∈ d := by
  rw [pyGet] at h
  obtain ⟨e, he, h2⟩ := Option.map_eq_some'.mp h
  have h1 : e.1 = k := by simpa using List.find?_some he
  have := List.mem_of_find?_eq_some he
  rwa [show (k, v) = e from Prod.ext h1.symm h2.symm]

theorem pyGet_isSome_of_mem_keys {d : TreeDict} {k : Str}
    (h : k ∈ keysOf d) : ∃ v, pyGet d k = some v := by
  obtain ⟨e, he, h1⟩ := List.mem_map.mp h
  have : (d.find? (fun x => decide (x.1 = k))).isSome := by
    rw [List.find?_isSome]
    exact ⟨e, he, by simp [h1]⟩
  obtain ⟨e', he'⟩ := Option.isSome_iff_exists.mp this
  exact ⟨e'.2, by rw [pyGet, he']; rfl⟩

theorem entry_eq_of_keys_nodup {d : TreeDict} {e e' : Str × TreeNode}
    (hnd : (keysOf d).Nodup) (he : e ∈ d) (he' : e' ∈ d) (h : e.1 = e'.1) :
    e = e' := by
  induction d with
  | nil => simp at he
  | cons a rest ih =>
    have hnd2 : (keysOf rest).Nodup := by
      simpa [keysOf] using hnd.of_cons
    have hha : a.1 ∉ keysOf rest := by
      simp only [keysOf, List.map_cons, List.nodup_cons] at hnd
      exact hnd.1
    rcases List.mem_cons.mp he with rfl | hm
    · rcases List.mem_cons.mp he' with rfl | hm'
      · rfl
      · exact absurd (h ▸ List.mem_map_of_mem Prod.fst hm') hha
    · rcases List.mem_cons.mp he' with rfl | hm'
      · exact absurd (h ▸ List.mem_map_of_mem Prod.fst hm) hha
      · exact ih hnd2 hm hm'

/-- Well-formedness of one tree entry produced by the classification loop:
a fact list keyed by a topic name holds nonempty records of that topic whose
depth is the topic's registered weight; a root node is keyed by its topic
name with `_root` appended and marks a weight-1 topic. -/
def EntryOK (e : Str × TreeNode) : Prop :=
  match e.2 with
  | .facts l =>
      e.1 ∈ topicNames weighted_topic_vals ∧ l ≠ [] ∧
        ∀ r ∈ l, r.topic = e.1 ∧ weightAt weighted_topic_vals e.1 = some r.depth
  | .root t =>
      t ∈ topicNames weighted_topic_vals ∧ e.1 = t ++ rootSuffix ∧
        weightAt weighted_topic_vals t = some 1

theorem entryOK_facts {k : Str} {l : List FactResults} :
    EntryOK (k, .facts l) ↔
      (k ∈ topicNames weighted_topic_vals ∧ l ≠ [] ∧
        ∀ r ∈ l, r.topic = k ∧ weightAt weighted_topic_vals k = some r.depth) :=
  Iff.rfl

theorem entryOK_root {k t : Str} :
    EntryOK (k, .root t) ↔
      (t ∈ topicNames weighted_topic_vals ∧ k = t ++ rootSuffix ∧
        weightAt weighted_topic_vals t = some 1) :=
  Iff.rfl

/-- Invariant of the tree dictionary maintained by the classification loop
over the shipped model. -/
def TreeInv (d : TreeDict) : Prop :=
  (∀ e ∈ d, EntryOK e) ∧ (keysOf d).Nodup ∧
    ∀ T ∈ topicNames weighted_topic_vals,
      ((T ++ rootSuffix) ∈ keysOf d ↔
        T ∈ keysOf d ∧ weightAt weighted_topic_vals T = some 1)

theorem noRootSuffixName :
    ∀ a ∈ topicNames weighted_topic_vals,
      ∀ b ∈ topicNames weighted_topic_vals, a ≠ b ++ rootSuffix := by
  decide

theorem rootSuffix_append_ne (T : Str) : T ++ rootSuffix ≠ T := by
  intro h
  have hlen := congrArg List.length h
  rw [List.length_append] at hlen
  have h5 : rootSuffix.length = 5 := rfl
  omega

theorem treeInv_nil : TreeInv [] := by
  refine ⟨by simp, by simp [keysOf], ?_⟩
  intro T _
  simp [keysOf]

theorem insertFact_existing {d : TreeDict} {r : FactResults} {l : List FactResults}
    (hinv : TreeInv d)
    (ht : r.topic ∈ topicNames weighted_topic_vals)
    (hw : weightAt weighted_topic_vals r.topic = some r.depth)
    (hget : pyGet d r.topic = some (.facts l)) :
    TreeInv (dictSet d r.topic (.facts (l ++ [r]))) ∧
      ∀ x, x ∈ treeRecords (dictSet d r.topic (.facts (l ++ [r]))) ↔
        x ∈ treeRecords d ∨ x = r := by
  obtain ⟨hok, hnd, hiff⟩ := hinv
  have hEntry : (r.topic, TreeNode.facts l) ∈ d := pyGet_some_mem hget
  have hEOK := hok _ hEntry
  rw [entryOK_facts] at hEOK
  have hkey : r.topic ∈ keysOf d := List.mem_map_of_mem Prod.fst hEntry
  have hkeys : keysOf (dictSet d r.topic (.facts (l ++ [r]))) = keysOf d := by
    rw [keysOf_dictSet, if_pos hkey]
  refine ⟨⟨?_, ?_, ?_⟩, ?_⟩
  · intro e he
    rcases mem_entry_dictSet he with ⟨hed, _⟩ | rfl
    · exact hok e hed
    · rw [entryOK_facts]
      refine ⟨ht, by simp, ?_⟩
      intro x hx
      rcases List.mem_append.mp hx with hx | hx
      · exact hEOK.2.2 x hx
      · rw [List.mem_singleton.mp hx]
        exact ⟨rfl, hw⟩
  · rw [hkeys]; exact hnd
  · intro T hT
    rw [hkeys]
    exact hiff T hT
  · intro x
    constructor
    · intro hx
      obtain ⟨e, he, l2, hl2, hxl⟩ := mem_treeRecords.mp hx
      rcases mem_entry_dictSet he with ⟨hed, _⟩ | rfl
      · exact Or.inl (mem_treeRecords.mpr ⟨e, hed, l2, hl2, hxl⟩)
      · simp only at hl2
        cases hl2
        rcases List.mem_append.mp hxl with hx2 | hx2
        · exact Or.inl (mem_treeRecords.mpr ⟨_, hEntry, l, rfl, hx2⟩)
        · exact Or.inr (List.mem_singleton.mp hx2)
    · intro hx
      rcases hx with hx | hxr
      · obtain ⟨e, he, l2, hl2, hxl⟩ := mem_treeRecords.mp hx
        by_cases hek : e.1 = r.topic
        · have heq : e = (r.topic, TreeNode.facts l) :=
            entry_eq_of_keys_nodup hnd he hEntry hek
          rw [heq] at hl2
          simp only at hl2
          cases hl2
          exact mem_treeRecords.mpr
            ⟨_, self_mem_dictSet d r.topic (.facts (l ++ [r])), l ++ [r], rfl,
              List.mem_append_left _ hxl⟩
        · exact mem_treeRecords.mpr
            ⟨e, entry_mem_dictSet_of_ne he hek, l2, hl2, hxl⟩
      · subst hxr
        exact mem_treeRecords.mpr
          ⟨_, self_mem_dictSet d x.topic (.facts (l ++ [x])), l ++ [x], rfl,
            List.mem_append_right _ (by simp)⟩

theorem insertFact_new_depth1 {d : TreeDict} {r : FactResults}
    (hinv : TreeInv d)
    (ht : r.topic ∈ topicNames weighted_topic_vals)
    (hw : weightAt weighted_topic_vals r.topic = some r.depth)
    (hknot : r.topic ∉ keysOf d) (hd1 : r.depth = 1) :
    TreeInv (dictSet (dictSet d (r.topic ++ rootSuffix) (.root r.topic))
        r.topic (.facts [r])) ∧
      ∀ x, x ∈ treeRecords (dictSet (dictSet d (r.topic ++ rootSuffix)
          (.root r.topic)) r.topic (.facts [r])) ↔
        x ∈ treeRecords d ∨ x = r := by
  obtain ⟨hok, hnd, hiff⟩ := hinv
  have hw1 : weightAt weighted_topic_vals r.topic = some 1 := by
    rw [hw, hd1]
  have hrknot : r.topic ++ rootSuffix ∉ keysOf d := by
    intro hmem
    exact hknot ((hiff r.topic ht).mp hmem).1
  have hkeysd2 : ∀ k', k' ∈ keysOf (dictSet (dictSet d (r.topic ++ rootSuffix)
      (.root r.topic)) r.topic (.facts [r])) ↔
      (k' ∈ keysOf d ∨ k' = r.topic ++ rootSuffix) ∨ k' = r.topic := by
    intro k'
    rw [mem_keysOf_dictSet, mem_keysOf_dictSet]
  refine ⟨⟨?_, ?_, ?_⟩, ?_⟩
  · intro e he
    rcases mem_entry_dictSet he with ⟨hed', _⟩ | rfl
    · rcases mem_entry_dictSet hed' with ⟨hed, _⟩ | rfl
      · exact hok e hed
      · rw [entryOK_root]
        exact ⟨ht, rfl, hw1⟩
    · rw [entryOK_facts]
      refine ⟨ht, by simp, ?_⟩
      intro x hx
      rw [List.mem_singleton.mp hx]
      exact ⟨rfl, hw⟩
  · have h1 : keysOf (dictSet d (r.topic ++ rootSuffix) (.root r.topic)) =
        keysOf d ++ [r.topic ++ rootSuffix] := by
      rw [keysOf_dictSet, if_neg hrknot]
    have h2 : r.topic ∉ keysOf (dictSet d (r.topic ++ rootSuffix)
        (.root r.topic)) := by
      rw [h1]
      intro hmem
      rcases List.mem_append.mp hmem with hmem | hmem
      · exact hknot hmem
      · exact rootSuffix_append_ne r.topic (List.mem_singleton.mp hmem).symm
    rw [keysOf_dictSet, if_neg h2, h1]
    refine List.Nodup.append (List.Nodup.append hnd (by simp) ?_) (by simp) ?_
    · intro a ha ha'
      rw [List.mem_singleton.mp ha'] at ha
      exact hrknot ha
    · intro a ha ha'
      rw [List.mem_singleton.mp ha'] at ha
      rcases List.mem_append.mp ha with ha | ha
      · exact hknot ha
      · exact rootSuffix_append_ne r.topic (List.mem_singleton.mp ha).symm
  · intro T hT
    by_cases hTr : T = r.topic
    · subst hTr
      constructor
      · intro _
        exact ⟨(hkeysd2 r.topic).mpr (Or.inr rfl), hw1⟩
      · intro _
        exact (hkeysd2 (r.topic ++ rootSuffix)).mpr (Or.inl (Or.inr rfl))
    · have hsfx_ne_rk : T ++ rootSuffix ≠ r.topic ++ rootSuffix := by
        intro h
        exact hTr (List.append_cancel_right h)
      have hsfx_ne_t : T ++ rootSuffix ≠ r.topic := by
        intro h
        exact noRootSuffixName r.topic ht T hT h.symm
      have hT_ne_rk : T ≠ r.topic ++ rootSuffix := by
        intro h
        exact noRootSuffixName T hT r.topic ht h
      rw [hkeysd2, hkeysd2]
      constructor
      · rintro ((hmem | h) | h)
        · obtain ⟨hTk, hTw⟩ := (hiff T hT).mp hmem
          exact ⟨Or.inl (Or.inl hTk), hTw⟩
        · exact absurd h hsfx_ne_rk
        · exact absurd h hsfx_ne_t
      · rintro ⟨(hTk | h) | h, hTw⟩
        · exact Or.inl (Or.inl ((hiff T hT).mpr ⟨hTk, hTw⟩))
        · exact absurd h hT_ne_rk
        · exact absurd h hTr
  · intro x
    constructor
    · intro hx
      obtain ⟨e, he, l2, hl2, hxl⟩ := mem_treeRecords.mp hx
      rcases mem_entry_dictSet he with ⟨hed', _⟩ | rfl
      · rcases mem_entry_dictSet hed' with ⟨hed, _⟩ | rfl
        · exact Or.inl (mem_treeRecords.mpr ⟨e, hed, l2, hl2, hxl⟩)
        · simp at hl2
      · simp only at hl2
        cases hl2
        exact Or.inr (List.mem_singleton.mp hxl)
    · intro hx
      rcases hx with hx | hxr
      · obtain ⟨e, he, l2, hl2, hxl⟩ := mem_treeRecords.mp hx
        have hames : e.1 ∈ topicNames weighted_topic_vals := by
          have := hok e he
          rw [show e = (e.1, e.2) from rfl, hl2, entryOK_facts] at this
          exact this.1
        have hne_t : e.1 ≠ r.topic := by
          intro h
          exact hknot (h ▸ List.mem_map_of_mem Prod.fst he)
        have hne_rk : e.1 ≠ r.topic ++ rootSuffix :=
          noRootSuffixName e.1 hames r.topic ht
        exact mem_treeRecords.mpr
          ⟨e, entry_mem_dictSet_of_ne (entry_mem_dictSet_of_ne he hne_rk) hne_t,
            l2, hl2, hxl⟩
      · subst hxr
        exact mem_treeRecords.mpr
          ⟨_, self_mem_dictSet _ x.topic (.facts [x]), [x], rfl, by simp⟩

theorem insertFact_new_other {d : TreeDict} {r : FactResults}
    (hinv : TreeInv d)
    (ht : r.topic ∈ topicNames weighted_topic_vals)
    (hw : weightAt weighted_topic_vals r.topic = some r.depth)
    (hknot : r.topic ∉ keysOf d) (hd1 : ¬ r.depth = 1) :
    TreeInv (dictSet d r.topic (.facts [r])) ∧
      ∀ x, x ∈ treeRecords (dictSet d r.topic (.facts [r])) ↔
        x ∈ treeRecords d ∨ x = r := by
  obtain ⟨hok, hnd, hiff⟩ := hinv
  have hkeysd2 : ∀ k', k' ∈ keysOf (dictSet d r.topic (.facts [r])) ↔
      k' ∈ keysOf d ∨ k' = r.topic := by
    intro k'
    rw [mem_keysOf_dictSet]
  refine ⟨⟨?_, ?_, ?_⟩, ?_⟩
  · intro e he
    rcases mem_entry_dictSet he with ⟨hed, _⟩ | rfl
    · exact hok e hed
    · rw [entryOK_facts]
      refine ⟨ht, by simp, ?_⟩
      intro x hx
      rw [List.mem_singleton.mp hx]
      exact ⟨rfl, hw⟩
  · rw [keysOf_dictSet, if_neg hknot]
    refine List.Nodup.append hnd (by simp) ?_
    intro a ha ha'
    rw [List.mem_singleton.mp ha'] at ha
    exact hknot ha
  · intro T hT
    by_cases hTr : T = r.topic
    · subst hTr
      have hL : ¬ (r.topic ++ rootSuffix) ∈
          keysOf (dictSet d r.topic (.facts [r])) := by
        rw [hkeysd2]
        rintro (hmem | h)
        · exact hknot ((hiff r.topic hT).mp hmem).1
        · exact rootSuffix_append_ne r.topic h
      have hR : ¬ (r.topic ∈ keysOf (dictSet d r.topic (.facts [r])) ∧
          weightAt weighted_topic_vals r.topic = some 1) := by
        rintro ⟨_, hW⟩
        rw [hw] at hW
        exact hd1 (Option.some.inj hW)
      exact iff_of_false hL hR
    · have hsfx_ne_t : T ++ rootSuffix ≠ r.topic := by
        intro h
        exact noRootSuffixName r.topic ht T hT h.symm
      rw [hkeysd2, hkeysd2]
      constructor
      · rintro (hmem | h)
        · obtain ⟨hTk, hTw⟩ := (hiff T hT).mp hmem
          exact ⟨Or.inl hTk, hTw⟩
        · exact absurd h hsfx_ne_t
      · rintro ⟨hTk | h, hTw⟩
        · exact Or.inl ((hiff T hT).mpr ⟨hTk, hTw⟩)
        · exact absurd h hTr
  · intro x
    constructor
    · intro hx
      obtain ⟨e, he, l2, hl2, hxl⟩ := mem_treeRecords.mp hx
      rcases mem_entry_dictSet he with ⟨hed, _⟩ | rfl
      · exact Or.inl (mem_treeRecords.mpr ⟨e, hed, l2, hl2, hxl⟩)
      · simp only at hl2
        cases hl2
        exact Or.inr (List.mem_singleton.mp hxl)
    · intro hx
      rcases hx with hx | hxr
      · obtain ⟨e, he, l2, hl2, hxl⟩ := mem_treeRecords.mp hx
        have hne_t : e.1 ≠ r.topic := by
          intro h
          exact hknot (h ▸ List.mem_map_of_mem Prod.fst he)
        exact mem_treeRecords.mpr
          ⟨e, entry_mem_dictSet_of_ne he hne_t, l2, hl2, hxl⟩
      · subst hxr
        exact mem_treeRecords.mpr
          ⟨_, self_mem_dictSet _ x.topic (.facts [x]), [x], rfl, by simp⟩

/-- Inserting a record whose topic is a topic name carrying its registered
weight as depth preserves the tree invariant, never raises, and adds exactly
that record to the stored records. -/
theorem insertFact_step {d : TreeDict} {r : FactResults}
    (hinv : TreeInv d)
    (ht : r.topic ∈ topicNames weighted_topic_vals)
    (hw : weightAt weighted_topic_vals r.topic = some r.depth) :
    ∃ d2, insertFact d r = .ok d2 ∧ TreeInv d2 ∧
      ∀ x, x ∈ treeRecords d2 ↔ x ∈ treeRecords d ∨ x = r := by
  rcases hget : pyGet d r.topic with _ | node
  · have hknot : r.topic ∉ keysOf d := pyGet_eq_none_iff.mp hget
    by_cases hd1 : r.depth = 1
    · refine ⟨_, ?_, (insertFact_new_depth1 hinv ht hw hknot hd1).1,
        (insertFact_new_depth1 hinv ht hw hknot hd1).2⟩
      rw [insertFact, hget]
      simp only [if_pos hd1]
    · refine ⟨_, ?_, (insertFact_new_other hinv ht hw hknot hd1).1,
        (insertFact_new_other hinv ht hw hknot hd1).2⟩
      rw [insertFact, hget]
      simp only [if_neg hd1]
  · rcases node with l | t
    · refine ⟨_, ?_, (insertFact_existing hinv ht hw hget).1,
        (insertFact_existing hinv ht hw hget).2⟩
      rw [insertFact, hget]
    · exfalso
      have hEntry := pyGet_some_mem hget
      have := (entryOK_root.mp (hinv.1 _ hEntry)).2.1
      exact noRootSuffixName r.topic ht t
        ((entryOK_root.mp (hinv.1 _ hEntry)).1) this

/-- Master induction for classification over the shipped model: the loop
never raises, the tree invariant holds of the result, and the stored records
are exactly the successful per-fact classifications of the batch. -/
theorem dfhGo_master (facts : List Str) :
    ∀ d0 : TreeDict, TreeInv d0 →
      ∃ d, dfhGo weighted_topic_vals facts d0 = .ok d ∧ TreeInv d ∧
        ∀ x, x ∈ treeRecords d ↔ (x ∈ treeRecords d0 ∨
          ∃ g ∈ facts, classifyFact weighted_topic_vals g = .ok (some x)) := by
  induction facts with
  | nil =>
    intro d0 hinv
    exact ⟨d0, rfl, hinv, by simp⟩
  | cons f rest ih =>
    intro d0 hinv
    have hcf := classifyFact_eq weighted_topic_vals modelOK_shipped f
    rcases hc : classifySpec weighted_topic_vals f with _ | r
    · rw [hc] at hcf
      obtain ⟨d, hd, hinv2, hmem⟩ := ih d0 hinv
      refine ⟨d, ?_, hinv2, ?_⟩
      · rw [dfhGo, hcf]
        exact hd
      · intro x
        rw [hmem]
        constructor
        · rintro (hx | ⟨g, hg, hgc⟩)
          · exact Or.inl hx
          · exact Or.inr ⟨g, List.mem_cons_of_mem f hg, hgc⟩
        · rintro (hx | ⟨g, hg, hgc⟩)
          · exact Or.inl hx
          · rcases List.mem_cons.mp hg with rfl | hg
            · rw [hcf] at hgc
              simp at hgc
            · exact Or.inr ⟨g, hg, hgc⟩
    · rw [hc] at hcf
      obtain ⟨hfact, htop, hwt⟩ :=
        classifySpec_props modelOK_shipped topicNames_shipped_nodup hc
      obtain ⟨d1, hd1, hinv1, hmem1⟩ := insertFact_step hinv htop hwt
      obtain ⟨d, hd, hinv2, hmem⟩ := ih d1 hinv1
      refine ⟨d, ?_, hinv2, ?_⟩
      · rw [dfhGo, hcf]
        show (match insertFact d0 r with
          | Except.error err => Except.error err
          | Except.ok d2 => dfhGo weighted_topic_vals rest d2) = Except.ok d
        rw [hd1]
        exact hd
      · intro x
        rw [hmem]
        constructor
        · rintro (hx | ⟨g, hg, hgc⟩)
          · rcases (hmem1 x).mp hx with hx | hxr
            · exact Or.inl hx
            · exact Or.inr ⟨f, List.mem_cons_self f rest, by rw [hcf, hxr]⟩
          · exact Or.inr ⟨g, List.mem_cons_of_mem f hg, hgc⟩
        · rintro (hx | ⟨g, hg, hgc⟩)
          · exact Or.inl ((hmem1 x).mpr (Or.inl hx))
          · rcases List.mem_cons.mp hg with rfl | hg
            · rw [hcf] at hgc
              have : r = x := by simpa using hgc
              exact Or.inl ((hmem1 x).mpr (Or.inr this.symm))
            · exact Or.inr ⟨g, hg, hgc⟩

/-- Classification over the shipped model never raises, and the result
satisfies the tree invariant with its records being exactly the per-fact
classifications. -/
theorem dfh_master (facts : List Str) :
    ∃ d, determine_facts_hierarchy facts weighted_topic_vals = .ok d ∧
      TreeInv d ∧
      ∀ x, x ∈ treeRecords d ↔
        ∃ g ∈ facts, classifyFact weighted_topic_vals g = .ok (some x) := by
  obtain ⟨d, hd, hinv, hmem⟩ := dfhGo_master facts [] treeInv_nil
  refine ⟨d, hd, hinv, ?_⟩
  intro x
  rw [hmem]
  simp [treeRecords]

/-! ## Claim theorems -/

/-- The fact of claim C4, `"My cat's fur is the softest I've ever felt."`,
written with explicit codepoints 39 for the two ASCII apostrophes. -/
def c4fact : Str :=
  "My cat".cp ++ [39] ++ "s fur is the softest I".cp ++ [39] ++
    "ve ever felt.".cp

/-- C4 counterexample: classifying the claim's fact with the shipped model
yields exactly one classified fact, with topic `cat`, depth 1 and parents
`["cat_root"]`; no record with topic `appearance` and depth 2 exists in the
result, contrary to the claim.  (Normalization turns `cat's` into `cats`,
which lies in `cat_matches` and is reached before `fur`.) -/
theorem claim_C4_counterexample :
    determine_facts_hierarchy [c4fact] weighted_topic_vals =
      .ok [("cat_root".cp, .root "cat".cp),
           ("cat".cp, .facts [⟨"cat".cp, 1, ["cat_root".cp], c4fact⟩])] ∧
    ∀ r ∈ treeRecords
        [("cat_root".cp, TreeNode.root "cat".cp),
         ("cat".cp, TreeNode.facts [⟨"cat".cp, 1, ["cat_root".cp], c4fact⟩])],
      ¬(r.topic = "appearance".cp ∧ r.depth = 2) := by
  constructor
  · decide
  · decide

/-- C4 as amended: classifying the single input fact
`"My cat's fur is the softest I've ever felt."` with the shipped topic model
yields a classified fact with topic `cat`, depth 1 and parent set
`{"cat_root"}` (the token `cats`, from `cat's`, matches `cat`'s keyword list
before `fur` is reached), together with the synthesized `cat_root` root
node. -/
theorem claim_C4 :
    determine_facts_hierarchy [c4fact] weighted_topic_vals =
      .ok [("cat_root".cp, .root "cat".cp),
           ("cat".cp, .facts [⟨"cat".cp, 1, ["cat_root".cp], c4fact⟩])] := by
  decide

/-- C6: classification over the shipped model is total — the empty batch
yields the empty tree, and every batch of facts yields a tree with no error
escaping the run. -/
theorem claim_C6 :
    determine_facts_hierarchy [] weighted_topic_vals = .ok [] ∧
      ∀ facts : List Str,
        ∃ d, determine_facts_hierarchy facts weighted_topic_vals = .ok d := by
  refine ⟨rfl, ?_⟩
  intro facts
  obtain ⟨d, hd, _, _⟩ := dfh_master facts
  exact ⟨d, hd⟩

/-- A model containing a topic that has a keyword list but no registered
weight, used for claim C8. -/
def weightlessModel : TopicModel := [("t".cp, ⟨none, some ["x".cp], none⟩)]

/-- C8: the code contradicts its documented convention.  The comment at
lines 281 and 293 says a topic without a registered weight yields a root
node of depth 0, but the keyword branch reads `vals['weight']` (line 262)
before that conversion can run, so classifying a fact that matches only a
weightless topic raises `KeyError` instead of producing a depth-0 record. -/
theorem claim_C8 :
    (∀ e ∈ weightlessModel,
      e.2.weight = none ∧ e.2.«matches» = some ["x".cp]) ∧
    determine_facts_hierarchy ["x".cp] weightlessModel =
      .error .keyError := by
  constructor
  · decide
  · decide

theorem saveGo_err (d : TreeDict) :
    ∀ (idx : Nat) (k : Str) (f : FactResults),
      (k, TreeNode.facts [f]) ∈ d → saveGo idx d = .error .typeError := by
  induction d with
  | nil => intro idx k f h; simp at h
  | cons e rest ih =>
    intro idx k f h
    rcases List.mem_cons.mp h with rfl | hmem
    · simp [saveGo]
    · rcases e with ⟨ek, node⟩
      rcases node with l | t
      · by_cases hl : 1 < l.length
        · simp [saveGo, hl, ih _ k f hmem]
        · simp [saveGo, hl]
      · simp [saveGo, ih _ k f hmem]

/-- C9: a tree entry whose value is a one-element fact list falls into the
root-node branch of `save_to_db_clean` (it fails the
`len(node) > 1 and type(node) is list` test), where
`node['parents'] = "none"` assigns a string index on a list and raises
`TypeError`; the write errors out and the fact is not inserted as a fact
record (the run produces no row list at all). -/
theorem claim_C9 (d : TreeDict) (k : Str) (f : FactResults)
    (h : (k, TreeNode.facts [f]) ∈ d) :
    save_to_db_clean d = .error .typeError :=
  saveGo_err d 0 k f h

/-- Witness for C9 at a concrete tree holding a single one-element fact
list. -/
theorem claim_C9_witness :
    ("cat".cp, TreeNode.facts [⟨"cat".cp, 1, ["cat_root".cp], "x".cp⟩]) ∈
      [("cat".cp, TreeNode.facts [⟨"cat".cp, 1, ["cat_root".cp], "x".cp⟩])] ∧
    save_to_db_clean
      [("cat".cp, TreeNode.facts [⟨"cat".cp, 1, ["cat_root".cp], "x".cp⟩])] =
      .error .typeError :=
  ⟨by decide,
    claim_C9 [("cat".cp, TreeNode.facts [⟨"cat".cp, 1, ["cat_root".cp], "x".cp⟩])]
      "cat".cp ⟨"cat".cp, 1, ["cat_root".cp], "x".cp⟩ (by decide)⟩

theorem createGo_err (values : List CreateRec) :
    ∀ (idx : Nat) (r : CreateRec) (ps : List Str),
      r ∈ values → r.parents = some (some ps) →
        createGo idx values = .error .nameError := by
  induction values with
  | nil => intro idx r ps h _; simp at h
  | cons v rest ih =>
    intro idx r ps h hp
    rcases List.mem_cons.mp h with rfl | hmem
    · simp [createGo, hp]
    · rcases hv : v.parents with _ | p
      · simp [createGo, hv, ih idx r ps hmem hp]
      · rcases p with _ | p2
        · simp [createGo, hv, ih idx r ps hmem hp]
        · simp [createGo, hv]

/-- C10 counterexample: for a concrete record list whose single record has a
present, non-`None` `parents` value — the claim's scenario — `create` raises
`KeyError` when the table has a row and `TypeError` when it is empty, never
the claimed `NameError`: `index = row[0] + 1` (line 476) fails on the
name-keyed `RealDictRow` (or on `None`) before the record loop containing
the `eeach` typo is entered. -/
theorem claim_C10_counterexample :
    create (some (realDictRow 41 1 ("cat".cp) ("cat_root".cp) ("x".cp)))
        [⟨1, "cat".cp, "x".cp, some (some ["cat_root".cp])⟩] =
      .error .keyError ∧
    create none [⟨1, "cat".cp, "x".cp, some (some ["cat_root".cp])⟩] =
      .error .typeError ∧
    (Except.error PyErr.keyError : Except PyErr (List DbRec)) ≠
      .error .nameError ∧
    (Except.error PyErr.typeError : Except PyErr (List DbRec)) ≠
      .error .nameError := by
  refine ⟨by decide, by decide, by decide, by decide⟩

/-- C10 as amended: for every record list passed to `create` and every row
the preceding `SELECT` can yield (a `RealDictRow` keyed by the five column
names with arbitrary stored values, or `None` for an empty table), `create`
raises before inserting any record — `KeyError` from `row[0]` when a row
exists, `TypeError` when none does.  The `NameError` at the undefined
`eeach` (line 484) is unreachable, independently of the records' `parents`
fields. -/
theorem claim_C10 (idv depthv : Nat) (topicv parentsv factv : Str)
    (values : List CreateRec) :
    create (some (realDictRow idv depthv topicv parentsv factv)) values =
        .error .keyError ∧
      create none values = .error .typeError := by
  constructor
  · rfl
  · rfl

/-! ## Idempotency analysis of the normalizer (claim C5) -/

theorem lowerNat_lowerNat (c : Nat) : lowerNat (lowerNat c) = lowerNat c := by
  unfold lowerNat
  by_cases h : 65 ≤ c ∧ c ≤ 90
  · rw [if_pos h, if_neg (by omega)]
  · rw [if_neg h, if_neg h]

theorem isPyPunct_lowerNat {c : Nat} (h : isPyPunct (lowerNat c) = true) :
    isPyPunct c = true := by
  unfold lowerNat at h
  by_cases hc : 65 ≤ c ∧ c ≤ 90
  · rw [if_pos hc] at h
    exfalso
    rw [isPyPunct, decide_eq_true_eq] at h
    rw [pyPunct] at h
    simp only [List.mem_cons, List.not_mem_nil, or_false] at h
    omega
  · rwa [if_neg hc] at h

theorem lowerNat_eq_8217 {c : Nat} (h : lowerNat c = 8217) : c = 8217 := by
  unfold lowerNat at h
  by_cases hc : 65 ≤ c ∧ c ≤ 90
  · rw [if_pos hc] at h; omega
  · rwa [if_neg hc] at h

theorem lowerNat_eq_8220 {c : Nat} (h : lowerNat c = 8220) : c = 8220 := by
  unfold lowerNat at h
  by_cases hc : 65 ≤ c ∧ c ≤ 90
  · rw [if_pos hc] at h; omega
  · rwa [if_neg hc] at h

theorem dropWhile_head_false {p : Nat → Bool} {l : Str} {a : Nat} {t : Str}
    (h : l.dropWhile p = a :: t) : p a = false := by
  induction l with
  | nil => simp at h
  | cons b u ih =>
    rw [List.dropWhile_cons] at h
    rcases hb : p b with _ | _
    · rw [hb] at h
      simp only [Bool.false_eq_true, if_false] at h
      cases h
      exact hb
    · rw [hb] at h
      simp only [if_true] at h
      exact ih h

theorem dropWhile_idem (p : Nat → Bool) (l : Str) :
    (l.dropWhile p).dropWhile p = l.dropWhile p := by
  rcases h : l.dropWhile p with _ | ⟨a, t⟩
  · simp
  · simp [List.dropWhile_cons, dropWhile_head_false h]

theorem mem_pyStrip {x : Nat} {l : Str} (h : x ∈ pyStrip l) : x ∈ l := by
  rw [pyStrip, List.mem_reverse] at h
  have h2 := (List.dropWhile_suffix _).subset h
  rw [List.mem_reverse] at h2
  exact (List.dropWhile_suffix _).subset h2

theorem dropWhile_pyStrip (l : Str) :
    (pyStrip l).dropWhile isPySpace = pyStrip l := by
  rcases h : pyStrip l with _ | ⟨a, t⟩
  · simp
  · obtain ⟨u, hu⟩ :=
      List.dropWhile_suffix (l := (l.dropWhile isPySpace).reverse) isPySpace
    have hflat : pyStrip l ++ u.reverse = l.dropWhile isPySpace := by
      have := congrArg List.reverse hu
      rw [List.reverse_append, List.reverse_reverse] at this
      rw [pyStrip]
      exact this
    have hFl : l.dropWhile isPySpace = a :: (t ++ u.reverse) := by
      rw [← hflat, h]
      simp
    have hpa : isPySpace a = false := dropWhile_head_false hFl
    simp [List.dropWhile_cons, hpa]

theorem pyStrip_idem (l : Str) : pyStrip (pyStrip l) = pyStrip l := by
  have h1 : pyStrip (pyStrip l) =
      ((pyStrip l).reverse.dropWhile isPySpace).reverse := by
    rw [pyStrip, dropWhile_pyStrip]
  have h2 : (pyStrip l).reverse =
      (l.dropWhile isPySpace).reverse.dropWhile isPySpace := by
    rw [pyStrip, List.reverse_reverse]
  rw [h1, h2, dropWhile_idem]
  rw [pyStrip]

theorem map_eq_self_of (f : Nat → Nat) (l : Str) (h : ∀ x ∈ l, f x = x) :
    l.map f = l := by
  induction l with
  | nil => rfl
  | cons a t ih =>
    rw [List.map_cons, h a (List.mem_cons_self a t),
      ih (fun x hx => h x (List.mem_cons_of_mem a hx))]

theorem removeAll_eq_self_of {c : Nat} {l : Str} (h : ∀ x ∈ l, x ≠ c) :
    removeAll c l = l :=
  List.filter_eq_self.mpr (fun a ha => by simpa using h a ha)

/-- Every codepoint surviving `normalize_text` is lower-case-stable, not
ASCII punctuation, and not one of the two curly quotes. -/
theorem mem_normalize_text {x : Nat} {l : Str} (h : x ∈ normalize_text l) :
    lowerNat x = x ∧ isPyPunct x = false ∧ x ≠ 8217 ∧ x ≠ 8220 := by
  rw [normalize_text] at h
  simp only [removeAll, List.mem_filter, decide_eq_true_eq] at h
  obtain ⟨⟨⟨⟨⟨⟨hs, h17⟩, h39⟩, _⟩, _⟩, _⟩, h20⟩ := h
  obtain ⟨y, hy, hxy⟩ := List.mem_map.mp (mem_pyStrip hs)
  have hkeep : isPyPunct y = false := by
    have := (List.mem_filter.mp hy).2
    simpa using this
  refine ⟨?_, ?_, h17, h20⟩
  · rw [← hxy, lowerNat_lowerNat]
  · rcases hxx : isPyPunct x with _ | _
    · rfl
    · rw [← hxy] at hxx
      rw [isPyPunct_lowerNat hxx] at hkeep
      cases hkeep

/-- Every codepoint of the raw input surviving translation, lowering and
stripping in `normalize_text` is the lowering of an input codepoint. -/
theorem mem_strip_stage {x : Nat} {l : Str}
    (h : x ∈ pyStrip ((l.filter (fun c => !(isPyPunct c))).map lowerNat)) :
    ∃ y ∈ l, lowerNat y = x ∧ isPyPunct x = false := by
  obtain ⟨y, hy, hxy⟩ := List.mem_map.mp (mem_pyStrip h)
  have hkeep : isPyPunct y = false := by
    have := (List.mem_filter.mp hy).2
    simpa using this
  refine ⟨y, (List.mem_filter.mp hy).1, hxy, ?_⟩
  rcases hxx : isPyPunct x with _ | _
  · rfl
  · rw [← hxy] at hxx
    rw [isPyPunct_lowerNat hxx] at hkeep
    cases hkeep

/-- C5 counterexample: for the input consisting of a curly right single
quote, a space and `a`, normalization returns `" a"` (the quote is removed
only after stripping, exposing the leading space), and normalizing again
returns `"a"`, so `normalize_text` is not idempotent as claimed. -/
theorem claim_C5_counterexample :
    normalize_text [8217, 32, 97] = [32, 97] ∧
      normalize_text (normalize_text [8217, 32, 97]) = [97] ∧
      normalize_text (normalize_text [8217, 32, 97]) ≠
        normalize_text [8217, 32, 97] := by
  refine ⟨by decide, by decide, by decide⟩

/-- C5 as amended: `normalize_text` is idempotent on every string containing
neither the curly right single quote (U+2019) nor the curly left double
quote (U+201C) — the only two characters removed *after* the strip step that
the earlier punctuation deletion has not already removed, and hence the only
way a second normalization can differ (by re-stripping newly exposed
boundary whitespace). -/
theorem claim_C5 (l : Str) (h17 : (8217 : Nat) ∉ l) (h20 : (8220 : Nat) ∉ l) :
    normalize_text (normalize_text l) = normalize_text l := by
  have hstage : ∀ x ∈ pyStrip ((l.filter (fun c => !(isPyPunct c))).map lowerNat),
      isPyPunct x = false ∧ x ≠ 8217 ∧ x ≠ 8220 := by
    intro x hx
    obtain ⟨y, hyl, hxy, hxp⟩ := mem_strip_stage hx
    refine ⟨hxp, ?_, ?_⟩
    · intro hq
      rw [hq] at hxy
      rw [lowerNat_eq_8217 hxy] at hyl
      exact h17 hyl
    · intro hq
      rw [hq] at hxy
      rw [lowerNat_eq_8220 hxy] at hyl
      exact h20 hyl
  have hpn1 : ∀ c : Nat, isPyPunct c = true →
      ∀ x ∈ pyStrip ((l.filter (fun c => !(isPyPunct c))).map lowerNat),
        x ≠ c := by
    intro c hc x hx heq
    have h0 := (hstage x hx).1
    rw [heq, hc] at h0
    cases h0
  have hN : normalize_text l =
      pyStrip ((l.filter (fun c => !(isPyPunct c))).map lowerNat) := by
    rw [normalize_text,
      removeAll_eq_self_of (fun x hx => (hstage x hx).2.1),
      removeAll_eq_self_of (hpn1 39 (by decide)),
      removeAll_eq_self_of (hpn1 34 (by decide)),
      removeAll_eq_self_of (hpn1 41 (by decide)),
      removeAll_eq_self_of (hpn1 40 (by decide)),
      removeAll_eq_self_of (fun x hx => (hstage x hx).2.2)]
  have hprops : ∀ x ∈ normalize_text l,
      lowerNat x = x ∧ isPyPunct x = false ∧ x ≠ 8217 ∧ x ≠ 8220 :=
    fun x hx => mem_normalize_text hx
  have hpn2 : ∀ c : Nat, isPyPunct c = true →
      ∀ x ∈ normalize_text l, x ≠ c := by
    intro c hc x hx heq
    have h0 := (hprops x hx).2.1
    rw [heq, hc] at h0
    cases h0
  conv_lhs => rw [normalize_text]
  rw [show (normalize_text l).filter (fun c => !(isPyPunct c)) =
        normalize_text l from
      List.filter_eq_self.mpr (fun a ha => by simp [(hprops a ha).2.1]),
    map_eq_self_of lowerNat (normalize_text l) (fun x hx => (hprops x hx).1),
    hN, pyStrip_idem, ← hN,
    removeAll_eq_self_of (fun x hx => (hprops x hx).2.2.1),
    removeAll_eq_self_of (hpn2 39 (by decide)),
    removeAll_eq_self_of (hpn2 34 (by decide)),
    removeAll_eq_self_of (hpn2 41 (by decide)),
    removeAll_eq_self_of (hpn2 40 (by decide)),
    removeAll_eq_self_of (fun x hx => (hprops x hx).2.2.2)]

/-- Witness for C5 at a concrete curly-quote-free string. -/
theorem claim_C5_witness :
    ((8217 : Nat) ∉ "  Hello, World!".cp ∧ (8220 : Nat) ∉ "  Hello, World!".cp) ∧
      normalize_text (normalize_text "  Hello, World!".cp) =
        normalize_text "  Hello, World!".cp :=
  ⟨⟨by decide, by decide⟩,
    claim_C5 "  Hello, World!".cp (by decide) (by decide)⟩

/-- C3: in any tree produced by classifying a batch with the shipped model,
a root entry keyed `T + "_root"` exists precisely when some stored record
has topic `T` and depth 1. -/
theorem claim_C3 (facts : List Str) (d : TreeDict) (T : Str)
    (hd : determine_facts_hierarchy facts weighted_topic_vals = .ok d)
    (hT : T ∈ topicNames weighted_topic_vals) :
    (∃ t, pyGet d (T ++ rootSuffix) = some (.root t)) ↔
      ∃ r ∈ treeRecords d, r.topic = T ∧ r.depth = 1 := by
  obtain ⟨d2, hd2, hinv, _⟩ := dfh_master facts
  rw [hd] at hd2
  have hdd : d = d2 := Except.ok.inj hd2
  subst hdd
  obtain ⟨hok, hnd, hiff⟩ := hinv
  constructor
  · rintro ⟨t, hget⟩
    have hEntry := pyGet_some_mem hget
    have hkmem : (T ++ rootSuffix) ∈ keysOf d :=
      List.mem_map_of_mem Prod.fst hEntry
    obtain ⟨hTk, hTw⟩ := (hiff T hT).mp hkmem
    obtain ⟨v, hv⟩ := pyGet_isSome_of_mem_keys hTk
    have hEv := pyGet_some_mem hv
    have hEOK := hok _ hEv
    rcases v with lv | tv
    · rw [entryOK_facts] at hEOK
      obtain ⟨_, hne, hall⟩ := hEOK
      obtain ⟨r0, hr0⟩ := List.exists_mem_of_ne_nil lv hne
      have hp := hall r0 hr0
      refine ⟨r0, mem_treeRecords.mpr ⟨_, hEv, lv, rfl, hr0⟩, hp.1, ?_⟩
      have hq := hp.2
      rw [hTw] at hq
      exact (Option.some.inj hq).symm
    · rw [entryOK_root] at hEOK
      exact absurd hEOK.2.1 (noRootSuffixName T hT tv hEOK.1)
  · rintro ⟨r, hr, hrt, hrd⟩
    obtain ⟨e, he, le, hle, hrl⟩ := mem_treeRecords.mp hr
    have hEOK := hok e he
    rw [show e = (e.1, e.2) from rfl, hle, entryOK_facts] at hEOK
    obtain ⟨_, _, hall⟩ := hEOK
    have hp := hall r hrl
    have he1 : e.1 = T := by rw [← hp.1, hrt]
    have hTw : weightAt weighted_topic_vals T = some 1 := by
      rw [← he1, hp.2, hrd]
    have hTk : T ∈ keysOf d := he1 ▸ List.mem_map_of_mem Prod.fst he
    have hroot := (hiff T hT).mpr ⟨hTk, hTw⟩
    obtain ⟨v, hv⟩ := pyGet_isSome_of_mem_keys hroot
    have hEv := pyGet_some_mem hv
    have hEOK2 := hok _ hEv
    rcases v with lv | tv
    · rw [entryOK_facts] at hEOK2
      exact absurd rfl (noRootSuffixName _ hEOK2.1 T hT)
    · exact ⟨tv, hv⟩

/-- Witness for C3 at the batch `["a person naps"]` (an anchored fact of
depth 1) and topic `person`. -/
theorem claim_C3_witness :
    (determine_facts_hierarchy ["a person naps".cp] weighted_topic_vals =
        .ok [("person_root".cp, .root "person".cp),
             ("person".cp,
               .facts [⟨"person".cp, 1, ["person_root".cp], "a person naps".cp⟩])] ∧
      "person".cp ∈ topicNames weighted_topic_vals) ∧
    ((∃ t, pyGet
        [("person_root".cp, TreeNode.root "person".cp),
         ("person".cp,
           TreeNode.facts [⟨"person".cp, 1, ["person_root".cp], "a person naps".cp⟩])]
        ("person".cp ++ rootSuffix) = some (.root t)) ↔
      ∃ r ∈ treeRecords
          [("person_root".cp, TreeNode.root "person".cp),
           ("person".cp,
             TreeNode.facts [⟨"person".cp, 1, ["person_root".cp], "a person naps".cp⟩])],
        r.topic = "person".cp ∧ r.depth = 1) :=
  ⟨⟨by decide, by decide⟩,
    claim_C3 ["a person naps".cp] _ "person".cp (by decide) (by decide)⟩

/-- The record stored with payload `f` in the tree classified from any batch
containing `f` is exactly the per-fact classification of `f` — a function of
`f` and the model alone. -/
theorem records_for_fact {facts : List Str} {d : TreeDict} {f : Str}
    (r : FactResults) (hf : f ∈ facts)
    (hd : determine_facts_hierarchy facts weighted_topic_vals = .ok d) :
    ((r ∈ treeRecords d ∧ r.fact = f) ↔
      classifyFact weighted_topic_vals f = .ok (some r)) := by
  obtain ⟨d2, hd2, _, hmem⟩ := dfh_master facts
  rw [hd] at hd2
  have hdd : d = d2 := Except.ok.inj hd2
  subst hdd
  constructor
  · rintro ⟨hr, hrf⟩
    obtain ⟨g, hg, hgc⟩ := (hmem r).mp hr
    have hcf := classifyFact_eq weighted_topic_vals modelOK_shipped g
    rw [hcf] at hgc
    have hgspec : classifySpec weighted_topic_vals g = some r := Except.ok.inj hgc
    have hprops := classifySpec_props modelOK_shipped topicNames_shipped_nodup hgspec
    have hgf : g = f := by rw [← hprops.1, hrf]
    rw [← hgf, hcf, hgspec]
  · intro hc
    have hcf := classifyFact_eq weighted_topic_vals modelOK_shipped f
    rw [hcf] at hc
    have hspec : classifySpec weighted_topic_vals f = some r := Except.ok.inj hc
    have hprops := classifySpec_props modelOK_shipped topicNames_shipped_nodup hspec
    refine ⟨(hmem r).mpr ⟨f, hf, ?_⟩, hprops.1⟩
    rw [classifyFact_eq weighted_topic_vals modelOK_shipped f, hspec]

/-- C7: classification is independent per fact — for a fact `f` appearing in
two batches, a record with payload `f` is stored for the one batch exactly
when it is the per-fact classification of `f`, and hence exactly when it is
stored for the other batch; no cross-fact state exists. -/
theorem claim_C7 (facts1 facts2 : List Str) (f : Str) (d1 d2 : TreeDict)
    (r : FactResults) (h1 : f ∈ facts1) (h2 : f ∈ facts2)
    (hd1 : determine_facts_hierarchy facts1 weighted_topic_vals = .ok d1)
    (hd2 : determine_facts_hierarchy facts2 weighted_topic_vals = .ok d2) :
    ((r ∈ treeRecords d1 ∧ r.fact = f) ↔
      classifyFact weighted_topic_vals f = .ok (some r)) ∧
    ((r ∈ treeRecords d1 ∧ r.fact = f) ↔ (r ∈ treeRecords d2 ∧ r.fact = f)) :=
  ⟨records_for_fact r h1 hd1,
    (records_for_fact r h1 hd1).trans (records_for_fact r h2 hd2).symm⟩

/-- Witness for C7: the fact `"a person naps"` in two different batches. -/
theorem claim_C7_witness :
    ("a person naps".cp ∈ ["a person naps".cp] ∧
      "a person naps".cp ∈ ["good cats".cp, "a person naps".cp] ∧
      determine_facts_hierarchy ["a person naps".cp] weighted_topic_vals =
        .ok [("person_root".cp, .root "person".cp),
             ("person".cp,
               .facts [⟨"person".cp, 1, ["person_root".cp], "a person naps".cp⟩])] ∧
      determine_facts_hierarchy ["good cats".cp, "a person naps".cp]
          weighted_topic_vals =
        .ok [("positive_activities".cp,
               .facts [⟨"positive_activities".cp, 3,
                 ["cat_root".cp, "cat".cp, "activities".cp], "good cats".cp⟩]),
             ("person_root".cp, .root "person".cp),
             ("person".cp,
               .facts [⟨"person".cp, 1, ["person_root".cp], "a person naps".cp⟩])]) ∧
    ((⟨"person".cp, 1, ["person_root".cp], "a person naps".cp⟩ ∈
        treeRecords
          [("person_root".cp, TreeNode.root "person".cp),
           ("person".cp,
             TreeNode.facts [⟨"person".cp, 1, ["person_root".cp], "a person naps".cp⟩])] ∧
      FactResults.fact ⟨"person".cp, 1, ["person_root".cp], "a person naps".cp⟩ =
        "a person naps".cp) ↔
      classifyFact weighted_topic_vals "a person naps".cp =
        .ok (some ⟨"person".cp, 1, ["person_root".cp], "a person naps".cp⟩)) :=
  ⟨⟨by decide, by decide, by decide, by decide⟩,
    (claim_C7 ["a person naps".cp] ["good cats".cp, "a person naps".cp]
      "a person naps".cp
      [("person_root".cp, TreeNode.root "person".cp),
       ("person".cp,
         TreeNode.facts [⟨"person".cp, 1, ["person_root".cp], "a person naps".cp⟩])]
      [("positive_activities".cp,
         TreeNode.facts [⟨"positive_activities".cp, 3,
           ["cat_root".cp, "cat".cp, "activities".cp], "good cats".cp⟩]),
       ("person_root".cp, TreeNode.root "person".cp),
       ("person".cp,
         TreeNode.facts [⟨"person".cp, 1, ["person_root".cp], "a person naps".cp⟩])]
      ⟨"person".cp, 1, ["person_root".cp], "a person naps".cp⟩
      (by decide) (by decide) (by decide) (by decide)).1⟩

/-- In the shipped model no topic name occurs in any topic's keyword list,
so anchor matches and keyword matches never compete on the same token. -/
theorem noNameInKw :
    ∀ n ∈ topicNames weighted_topic_vals,
      ∀ e ∈ weighted_topic_vals, n ∉ e.2.«matches».getD [] := by
  decide

/-- The topics of the shipped model whose keyword lists contain at least one
token of the fact. -/
def matchedKwTopics (fact : Str) : TopicModel :=
  weighted_topic_vals.filter
    (fun e => decide (∃ t ∈ pyTokens fact, t ∈ e.2.«matches».getD []))

/-- C1 counterexample: the fact `"good cats"` contains no anchor token and
its tokens match the keyword lists of five topics, among which `cat` (via
the token `cats`) has the strictly smallest weight 1; yet classification
assigns the fact to `positive_activities` with depth 3, because the token
`good` is scanned first and `greatest_weight` is re-initialized per topic,
so the last enumerated matcher of the first matching token wins rather than
the topic of smallest weight. -/
theorem claim_C1_counterexample :
    (∀ t ∈ pyTokens "good cats".cp, t ∉ topicNames weighted_topic_vals) ∧
    ("cat".cp, (⟨some 1, some cat_matches, some ["cat_root".cp]⟩ : TopicDef)) ∈
      matchedKwTopics "good cats".cp ∧
    2 ≤ (matchedKwTopics "good cats".cp).length ∧
    (∀ e ∈ matchedKwTopics "good cats".cp,
      e.1 ≠ "cat".cp → 1 < e.2.weight.getD 0) ∧
    classifyFact weighted_topic_vals "good cats".cp =
      .ok (some ⟨"positive_activities".cp, 3,
        ["cat_root".cp, "cat".cp, "activities".cp], "good cats".cp⟩) ∧
    ("positive_activities".cp ≠ "cat".cp ∧ (3 : Nat) ≠ 1) := by
  refine ⟨by decide, by decide, by decide, by decide, by decide, by decide⟩

/-- C1 as amended: for a fact with no anchor token whose tokens match the
keyword sets of two or more topics, classification assigns the fact to the
*last* topic in the model's enumeration order whose keyword set contains the
fact's *first* matching token, and sets the depth to that topic's registered
weight — not to the matched topic of smallest weight. -/
theorem claim_C1 (fact : Str)
    (hanchor : ∀ t ∈ pyTokens fact, t ∉ topicNames weighted_topic_vals)
    (hmulti : 2 ≤ (matchedKwTopics fact).length) :
    ∃ t e,
      (pyTokens fact).find?
        (fun u => !(matchersOf weighted_topic_vals u).isEmpty) = some t ∧
      (matchersOf weighted_topic_vals t).getLast? = some e ∧
      e.1 ≠ t ∧ t ∈ e.2.«matches».getD [] ∧
      classifyFact weighted_topic_vals fact =
        .ok (some (recordOf fact t e)) ∧
      (recordOf fact t e).topic = e.1 ∧
      e.2.weight = some ((recordOf fact t e).depth) := by
  have hex : ∃ u ∈ pyTokens fact, matchersOf weighted_topic_vals u ≠ [] := by
    have hne : matchedKwTopics fact ≠ [] := by
      intro h
      rw [matchedKwTopics] at hmulti
      rw [matchedKwTopics] at h
      rw [h] at hmulti
      simp at hmulti
    obtain ⟨e0, he0⟩ := List.exists_mem_of_ne_nil _ hne
    obtain ⟨he0m, he0p⟩ := List.mem_filter.mp he0
    obtain ⟨t0, ht0, ht0m⟩ := of_decide_eq_true he0p
    refine ⟨t0, ht0, ?_⟩
    intro hnil
    have hmm : e0 ∈ matchersOf weighted_topic_vals t0 :=
      List.mem_filter.mpr ⟨he0m, by simp [ht0m]⟩
    rw [hnil] at hmm
    simp at hmm
  obtain ⟨u0, hu0, hu0m⟩ := hex
  have hsome : ((pyTokens fact).find?
      (fun u => !(matchersOf weighted_topic_vals u).isEmpty)).isSome :=
    List.find?_isSome.mpr ⟨u0, hu0, by simp [List.isEmpty_iff, hu0m]⟩
  obtain ⟨t, hfind⟩ := Option.isSome_iff_exists.mp hsome
  have htne : matchersOf weighted_topic_vals t ≠ [] := by
    have := List.find?_some hfind
    simpa [List.isEmpty_iff] using this
  obtain ⟨e, he⟩ := getLast?_ne_nil htne
  have hmem : e ∈ weighted_topic_vals :=
    List.mem_of_mem_filter (mem_of_getLast?_some he)
  have hpe := List.mem_filter.mp (mem_of_getLast?_some he)
  have hor := of_decide_eq_true hpe.2
  have htok : t ∈ pyTokens fact := List.mem_of_find?_eq_some hfind
  have hne1 : e.1 ≠ t := by
    intro h
    exact hanchor t htok (h ▸ List.mem_map_of_mem Prod.fst hmem)
  have hkw : t ∈ e.2.«matches».getD [] := by
    rcases hor with h | h
    · exact absurd h hne1
    · exact h
  have hcf := classifyFact_eq weighted_topic_vals modelOK_shipped fact
  have hspec : classifySpec weighted_topic_vals fact =
      some (recordOf fact t e) := by
    rw [classifySpec, hfind]
    simp [matchEnd, he]
  obtain ⟨w, hw⟩ := Option.isSome_iff_exists.mp (modelOK_shipped e hmem).1
  refine ⟨t, e, hfind, he, hne1, hkw, by rw [hcf, hspec],
    recordOf_topic fact t e, ?_⟩
  rw [recordOf_depth, hw]
  simp

/-- Witness for C1 at the fact `"good cats"`. -/
theorem claim_C1_witness :
    ((∀ t ∈ pyTokens "good cats".cp, t ∉ topicNames weighted_topic_vals) ∧
      2 ≤ (matchedKwTopics "good cats".cp).length) ∧
    (∃ t e,
      (pyTokens "good cats".cp).find?
        (fun u => !(matchersOf weighted_topic_vals u).isEmpty) = some t ∧
      (matchersOf weighted_topic_vals t).getLast? = some e ∧
      e.1 ≠ t ∧ t ∈ e.2.«matches».getD [] ∧
      classifyFact weighted_topic_vals "good cats".cp =
        .ok (some (recordOf "good cats".cp t e)) ∧
      (recordOf "good cats".cp t e).topic = e.1 ∧
      e.2.weight = some ((recordOf "good cats".cp t e).depth)) :=
  ⟨⟨by decide, by decide⟩, claim_C1 "good cats".cp (by decide) (by decide)⟩

/-- C2 counterexample: the fact `"cute cat"` contains the token `cat`, equal
to topic `cat`'s own name, yet the earlier token `cute` matches the keyword
lists of the weight-2 topics first, the `found` flag is set, and the anchor
token is never examined: the resulting record has topic `health`, parents
`["cat_root", "cat"]` and depth 2, not parent set `{"cat_root"}` and depth 1
as the claim requires. -/
theorem claim_C2_counterexample :
    ("cat".cp ∈ pyTokens "cute cat".cp ∧
      "cat".cp ∈ topicNames weighted_topic_vals) ∧
    classifyFact weighted_topic_vals "cute cat".cp =
      .ok (some ⟨"health".cp, 2, ["cat_root".cp, "cat".cp], "cute cat".cp⟩) ∧
    ("cat".cp ∈ (["cat_root".cp, "cat".cp] : List Str) ∧
      "cat".cp ≠ "cat".cp ++ rootSuffix ∧ (2 : Nat) ≠ 1) := by
  refine ⟨⟨by decide, by decide⟩, by decide, by decide, by decide, by decide⟩

/-- C2 as amended: anchoring wins only when the anchor token is the fact's
*first* matching token: if the first token with a nonempty matcher list is
itself a topic name of the shipped model, the resulting record is that
topic's anchor record — parents `{name + "_root"}` and depth the topic's
weight.  (An anchor token preceded by any keyword-matching token is never
examined, as the counterexample shows.) -/
theorem claim_C2 (fact t : Str)
    (hfind : (pyTokens fact).find?
      (fun u => !(matchersOf weighted_topic_vals u).isEmpty) = some t)
    (hname : t ∈ topicNames weighted_topic_vals) :
    ∃ e ∈ weighted_topic_vals, e.1 = t ∧
      classifyFact weighted_topic_vals fact =
        .ok (some ⟨t, e.2.weight.getD 0, [t ++ rootSuffix], fact⟩) := by
  have htne : matchersOf weighted_topic_vals t ≠ [] := by
    have := List.find?_some hfind
    simpa [List.isEmpty_iff] using this
  obtain ⟨e, he⟩ := getLast?_ne_nil htne
  have hmem : e ∈ weighted_topic_vals :=
    List.mem_of_mem_filter (mem_of_getLast?_some he)
  have hpe := List.mem_filter.mp (mem_of_getLast?_some he)
  have he1 : e.1 = t := by
    rcases of_decide_eq_true hpe.2 with h | h
    · exact h
    · exact absurd h (noNameInKw t hname e hmem)
  have hcf := classifyFact_eq weighted_topic_vals modelOK_shipped fact
  have hspec : classifySpec weighted_topic_vals fact =
      some (recordOf fact t e) := by
    rw [classifySpec, hfind]
    simp [matchEnd, he]
  refine ⟨e, hmem, he1, ?_⟩
  rw [hcf, hspec, recordOf, if_pos he1, he1]

/-- Witness for C2 at the fact `"the person naps"`, whose first matching
token is the anchor `person`. -/
theorem claim_C2_witness :
    ((pyTokens "the person naps".cp).find?
        (fun u => !(matchersOf weighted_topic_vals u).isEmpty) =
          some "person".cp ∧
      "person".cp ∈ topicNames weighted_topic_vals) ∧
    (∃ e ∈ weighted_topic_vals, e.1 = "person".cp ∧
      classifyFact weighted_topic_vals "the person naps".cp =
        .ok (some ⟨"person".cp, TopicDef.weight e.2 |>.getD 0,
          ["person".cp ++ rootSuffix], "the person naps".cp⟩)) :=
  ⟨⟨by decide, by decide⟩,
    claim_C2 "the person naps".cp "person".cp (by decide) (by decide)⟩
